import Mathlib

/-!
Verification of the core components of the automatisation-concours system:
the sliding-window rate limiter (`rate_limiter.py`), the intelligent cache
(`intelligent_cache.py`), the proxy rotation policy and the participation
worker (`app.py`).  Each Python component is shallowly embedded as
executable Lean definitions; Python dicts become association lists with
dict insertion/replacement semantics, `time.time()` becomes an explicit
integer parameter, and fallible calls are modelled with `Option` or an
explicit error constructor.
-/

/-! ## Association lists with Python dict semantics -/

/-- Lookup of a key in an association list (first binding wins; in a dict
keys are unique so this is the binding). -/
def alistLookup {α : Type} (k : String) : List (String × α) → Option α
  | [] => none
  | (k', v) :: rest => if k' = k then some v else alistLookup k rest

/-- Python dict assignment `d[k] = v`: replaces the binding in place if the
key is present (keeping its position), otherwise appends it at the end
(dicts and `OrderedDict` preserve insertion order). -/
def alistSet {α : Type} (k : String) (v : α) : List (String × α) → List (String × α)
  | [] => [(k, v)]
  | (k', v') :: rest => if k' = k then (k, v) :: rest else (k', v') :: alistSet k v rest

/-- Python dict deletion `del d[k]` / `OrderedDict.pop(k)`: removes the
binding of `k` (on a dict the key occurs at most once, so filtering out
every binding of `k` is the same operation). -/
def alistErase {α : Type} (k : String) (l : List (String × α)) : List (String × α) :=
  l.filter (fun kv => kv.1 ≠ k)

/-- The keys of an association list, in order. -/
def keysOf {α : Type} (l : List (String × α)) : List String :=
  l.map Prod.fst

/-! ## Rate limiter (`rate_limiter.py`) -/

namespace RL

/-- A per-endpoint-type limit configuration: `{'requests': …, 'window': …}`. -/
structure Limit where
  requests : Nat
  window : Int
  deriving DecidableEq

/-- The per-client record of the `defaultdict`:
`{'requests': deque(), 'blocked_until': 0}`.  The deque holds the
timestamps of admitted requests; there is a single such deque per client,
shared by every endpoint type. -/
structure ClientData where
  requests : List Int
  blocked_until : Int
  deriving DecidableEq

/-- The default value the `defaultdict` produces for an unseen client. -/
def defaultClient : ClientData := ⟨[], 0⟩

/-- The `RateLimiter` instance state: the clients map and the mutable
limits table. -/
structure State where
  clients : List (String × ClientData)
  limits : List (String × Limit)
  deriving DecidableEq

/-- The limits table installed by `RateLimiter.__init__`. -/
def initLimits : List (String × Limit) :=
  [("api", ⟨100, 60⟩), ("scraping", ⟨10, 60⟩), ("auth", ⟨5, 300⟩), ("heavy", ⟨5, 60⟩)]

/-- A fresh `RateLimiter()`. -/
def initState : State := ⟨[], initLimits⟩

/-- The client data read through the `defaultdict` (reading inserts the
default, which `isAllowed` below reflects by always writing back). -/
def clientData (s : State) (client : String) : ClientData :=
  (alistLookup client s.clients).getD defaultClient

/-- Python's `self.limits.get(endpoint_type, self.limits['api'])`.  The `'api'`
entry is present from construction on and `update_limits` only replaces
existing entries, so the inner `getD` default is never reached on states
arising from the constructor (Python would raise `KeyError` there). -/
def limitFor (s : State) (etype : String) : Limit :=
  (alistLookup etype s.limits).getD ((alistLookup "api" s.limits).getD ⟨100, 60⟩)

/-- Embeds `RateLimiter.is_allowed(client_id, endpoint_type)` at current time `t`:
returns the boolean verdict and the updated limiter state.  The purge of
stale timestamps (`while requests_queue and requests_queue[0] < cutoff:
popleft()`) is `dropWhile`. -/
def isAllowed (t : Int) (client : String) (etype : String) (s : State) : Bool × State :=
  let cd := clientData s client
  if t < cd.blocked_until then
    (false, { s with clients := alistSet client cd s.clients })
  else
    let limit := limitFor s etype
    let cutoff := t - limit.window
    let q := cd.requests.dropWhile (fun x => x < cutoff)
    if limit.requests ≤ q.length then
      (false, { s with clients := alistSet client ⟨q, t + 2 * limit.window⟩ s.clients })
    else
      (true, { s with clients := alistSet client ⟨q ++ [t], cd.blocked_until⟩ s.clients })

/-- Embeds `RateLimiter.update_limits(endpoint_type, requests, window)`. -/
def updateLimits (etype : String) (r : Nat) (w : Int) (s : State) : State :=
  if (alistLookup etype s.limits).isSome then
    { s with limits := alistSet etype ⟨r, w⟩ s.limits }
  else s

/-- Embeds `RateLimiter.clear_client(client_id)`. -/
def clearClient (client : String) (s : State) : State :=
  if (alistLookup client s.clients).isSome then
    { s with clients := alistErase client s.clients }
  else s

/-- Run a sequence of `is_allowed` calls for one client and endpoint type,
collecting the verdicts. -/
def runSeq (client etype : String) : List Int → State → List Bool × State
  | [], s => ([], s)
  | t :: ts, s =>
    let r := isAllowed t client etype s
    let rest := runSeq client etype ts r.2
    (r.1 :: rest.1, rest.2)

/-- Run an arbitrary sequence of `is_allowed` calls — each a
(current time, client, endpoint type) triple — threading the limiter
state. -/
def runCalls : List (Int × String × String) → State → State
  | [], s => s
  | a :: rest, s => runCalls rest (isAllowed a.1 a.2.1 a.2.2 s).2

end RL

/-! ## Proxy selection (`APIServer.get_proxy` in `app.py`) -/

namespace Proxy

/-- The proxy section of the configuration, as read back on every call:
`{'enabled': …, 'rotation_mode': …, 'list': […]}`. -/
structure ProxyConfig where
  enabled : Bool
  rotation_mode : String
  list : List String
  deriving DecidableEq

/-- Outcome of one `get_proxy()` call: a proxy, `None` ("no proxy"), or an
uncaught `IndexError` from `self.proxies[self.proxy_index]`. -/
inductive ProxyResult
  | ok (p : Option String)
  | indexError
  deriving DecidableEq

/-- Embeds `APIServer.get_proxy`.  Here `pick` stands for `random.choice` (only ever
applied to a non-empty list).  `idx` is the persistent `self.proxy_index`
cursor; the call returns the result and the updated cursor.  On an
`IndexError` the increment is never reached, so the cursor is unchanged. -/
def getProxy (pick : List String → String) (cfg : ProxyConfig) (idx : Nat) :
    ProxyResult × Nat :=
  if !cfg.enabled || cfg.list.isEmpty then (.ok none, idx)
  else if cfg.rotation_mode = "random" then (.ok (some (pick cfg.list)), idx)
  else if cfg.rotation_mode = "sequential" then
    if cfg.list.isEmpty then (.ok none, idx)
    else
      match cfg.list[idx]? with
      | none => (.indexError, idx)
      | some p => (.ok (some p), (idx + 1) % cfg.list.length)
  else (.ok none, idx)

/-- Runs `n` successive `get_proxy()` calls starting at cursor `idx`, against a
fixed configuration (the worker re-reads the same config each time). -/
def runProxy (pick : List String → String) (cfg : ProxyConfig) :
    Nat → Nat → List ProxyResult
  | _, 0 => []
  | idx, n + 1 =>
    let r := getProxy pick cfg idx
    r.1 :: runProxy pick cfg r.2 n

/-- Runs successive `get_proxy()` calls, each against the proxy
configuration it observes at that moment: `get_proxy` re-reads the
configuration on every call (`ConfigHandler.get_proxies` reloads
`config.json` from disk and consults the `PROXIES_LIST` environment
variable each time), so successive calls may see different lists while
the `self.proxy_index` cursor persists on the server object. -/
def runProxyConfigs (pick : List String → String) :
    List ProxyConfig → Nat → List ProxyResult × Nat
  | [], idx => ([], idx)
  | cfg :: rest, idx =>
    let r := getProxy pick cfg idx
    let rr := runProxyConfigs pick rest r.2
    (r.1 :: rr.1, rr.2)

end Proxy

/-! ## Participation worker (`APIServer._worker` in `app.py`) -/

namespace Worker

/-- A Python exception, as far as the worker can observe one. -/
inductive PyExc
  | keyError (field : String)
  | exc (msg : String)
  deriving DecidableEq

/-- The text interpolated by `f"Erreur système inattendue: {e}"`. -/
def excMsg : PyExc → String
  | .keyError f => "'" ++ f ++ "'"
  | .exc m => m

/-- A queued participation job: a loosely structured dict, so every field
the worker reads with `job[…]` may be missing (`none`).
`requires_email_confirmation` is read with `job.get(…, False)`. -/
structure Job where
  id : Option Nat
  url : Option String
  userData : Option String
  profile_id : Option Nat
  requires_email_confirmation : Option Bool
  deriving DecidableEq

/-- The decoded JSON response of the external automation call:
`{'success': …, 'message': …, 'error': …}`. -/
structure ScrapeResult where
  success : Bool
  message : Option String
  error : Option String
  deriving DecidableEq

/-- An observable side effect the worker performs on the persistence
collaborator, or the queue acknowledgement. -/
inductive Event
  | status (opp : Nat) (st : String) (msg : String)
  | history (opp : Nat) (action : String) (profile : Nat)
  | confirmationPending (opp : Nat) (domain : String)
  | taskDone
  deriving DecidableEq

/-- The worker's environment: for each external call, either `none`
(success) or `some e` (the call raises `e`); the scraper call either
returns a decoded response or raises (e.g. after its retries are
exhausted).  `netloc` stands for `urlparse(url).netloc` and `waitMessage`
for the randomized `f"En attente pendant {delay:.1f}s..."` text. -/
structure WorkerEnv where
  updateStatusExc : Nat → String → String → Option PyExc
  addHistoryExc : Nat → String → Nat → Option PyExc
  setConfPendingExc : Nat → String → Option PyExc
  scraperResult : String → Except PyExc ScrapeResult
  proxyResult : Except PyExc (Option String)
  netloc : String → String
  waitMessage : String

/-- Lines 127/130/135: `db.add_participation_history(opp_id, action,
job['profile_id'])` — the dict access raises `KeyError` when the field is
missing, and the db call itself may raise. -/
def addHist (env : WorkerEnv) (job : Job) (opp : Nat) (action : String)
    (evs : List Event) : List Event × Option PyExc :=
  match job.profile_id with
  | none => (evs, some (.keyError "profile_id"))
  | some pid =>
    match env.addHistoryExc opp action pid with
    | some e => (evs, some e)
    | none => (evs ++ [Event.history opp action pid], none)

/-- The body of the inner `try` (lines 113–130): proxy selection, the
external call, then result handling. -/
def tryBlock (env : WorkerEnv) (job : Job) (opp : Nat) (url : String) :
    List Event × Option PyExc :=
  match env.proxyResult with
  | .error e => ([], some e)
  | .ok _sel =>
    match env.scraperResult url with
    | .error e => ([], some e)
    | .ok result =>
      if result.success then
        if job.requires_email_confirmation.getD false then
          let d := env.netloc url
          match env.setConfPendingExc opp d with
          | some e => ([], some e)
          | none => addHist env job opp "participated" [Event.confirmationPending opp d]
        else
          match env.updateStatusExc opp "success"
              ((result.message).getD "Participation réussie.") with
          | some e => ([], some e)
          | none =>
            addHist env job opp "participated"
              [Event.status opp "success" ((result.message).getD "Participation réussie.")]
      else
        match env.updateStatusExc opp "failed"
            ((result.error).getD "Une erreur inconnue est survenue.") with
        | some e => ([], some e)
        | none =>
          addHist env job opp "failed"
            [Event.status opp "failed" ((result.error).getD "Une erreur inconnue est survenue.")]

/-- The inner `try`/`except Exception` (lines 112–135): a raise inside the
block runs the handler, which records a `failed` status and history entry
— and whose own calls (including the `job['profile_id']` access) may in
turn raise, escaping the loop. -/
def innerStep (env : WorkerEnv) (job : Job) (opp : Nat) (url : String) :
    List Event × Option PyExc :=
  let r := tryBlock env job opp url
  match r.2 with
  | none => r
  | some e =>
    let msg := "Erreur système inattendue: " ++ excMsg e
    match env.updateStatusExc opp "failed" msg with
    | some e' => (r.1, some e')
    | none => addHist env job opp "failed" (r.1 ++ [Event.status opp "failed" msg])

/-- One iteration of the worker loop body after a successful dequeue
(lines 97–137).  The second component is the exception escaping the
iteration, if any; the surrounding `try` only catches `queue.Empty`, so
such an exception terminates the worker loop. -/
def processJob (env : WorkerEnv) (job : Job) : List Event × Option PyExc :=
  match job.id with
  | none => ([], some (.keyError "id"))
  | some opp =>
    match job.url with
    | none => ([], some (.keyError "url"))
    | some url =>
      match job.userData with
      | none => ([], some (.keyError "userData"))
      | some _ud =>
        match env.updateStatusExc opp "processing" env.waitMessage with
        | some e => ([], some e)
        | none =>
          match env.updateStatusExc opp "processing"
              "Démarrage de la participation via Puppeteer." with
          | some e => ([Event.status opp "processing" env.waitMessage], some e)
          | none =>
            let ev2 := [Event.status opp "processing" env.waitMessage,
              Event.status opp "processing" "Démarrage de la participation via Puppeteer."]
            let r := innerStep env job opp url
            match r.2 with
            | some e => (ev2 ++ r.1, some e)
            | none => (ev2 ++ r.1 ++ [Event.taskDone], none)

/-- The worker loop over the queued jobs: per-iteration event lists, plus
the exception that escaped the loop (terminating the worker thread), if
any.  Jobs queued after such an exception are never dequeued. -/
def workerRun (env : WorkerEnv) : List Job → List (List Event) × Option PyExc
  | [] => ([], none)
  | j :: js =>
    let r := processJob env j
    match r.2 with
    | some e => ([r.1], some e)
    | none =>
      let rest := workerRun env js
      (r.1 :: rest.1, rest.2)

/-- An environment in which every external interaction succeeds. -/
def benignEnv : WorkerEnv where
  updateStatusExc := fun _ _ _ => none
  addHistoryExc := fun _ _ _ => none
  setConfPendingExc := fun _ _ => none
  scraperResult := fun _ => .ok ⟨true, some "ok", none⟩
  proxyResult := .ok none
  netloc := fun u => u
  waitMessage := "wait"

/-- The benign environment except that the external automation call always
raises (e.g. retries exhausted). -/
def scraperFailEnv : WorkerEnv :=
  { benignEnv with scraperResult := fun _ => .error (.exc "boom") }

/-- A job whose payload lacks the `id` field. -/
def jobMissingId : Job := ⟨none, some "http://a", some "ud", some 1, none⟩

/-- A well-formed job. -/
def goodJob : Job := ⟨some 2, some "http://b", some "ud", some 1, none⟩

end Worker

/-! ## Intelligent cache (`intelligent_cache.py`) -/

namespace Cache

/-- The per-entry metadata dict written by `set`. -/
structure Meta where
  created_at : Int
  expires_at : Int
  last_accessed : Int
  access_count : Nat
  size : Nat
  ttl : Int
  deriving DecidableEq

/-- An `IntelligentCache` instance: configuration, the ordered `_cache`
(`OrderedDict`, most-recently-used last), `_metadata`, and the `_stats`
counters (`last_cleanup` carries no behaviour relevant here and is
omitted).  Values have an opaque type `V`; `_estimate_size` is passed to
`cSet` as a function `V → Nat`. -/
structure CState (V : Type) where
  max_size : Nat
  default_ttl : Int
  max_memory_bytes : Int
  cache : List (String × V)
  metadata : List (String × Meta)
  hits : Nat
  misses : Nat
  evictions : Nat
  memory_usage : Int
  deriving DecidableEq

/-- The constructor `IntelligentCache(max_size, default_ttl, max_memory_bytes…)` (the
memory bound given directly in bytes). -/
def mkCache (V : Type) (max_size : Nat) (default_ttl : Int) (max_memory_bytes : Int) :
    CState V :=
  ⟨max_size, default_ttl, max_memory_bytes, [], [], 0, 0, 0, 0⟩

/-- Reads `self._metadata[key].get('size', 0)`.  (Python indexes the dict
directly and would raise `KeyError` on a missing key; `_cache` and
`_metadata` always hold the same keys, so the `getD 0` default is never
reached on such in-sync states.) -/
def metaSize {V : Type} (s : CState V) (k : String) : Nat :=
  ((alistLookup k s.metadata).map Meta.size).getD 0

/-- Embeds `IntelligentCache._remove_key`: `if key in self._cache: del
self._cache[key]`, then `if key in self._metadata:` subtract the recorded
size and delete the metadata entry (the two conditionals touch disjoint
fields). -/
def removeKey {V : Type} (k : String) (s : CState V) : CState V :=
  let cache' := if (alistLookup k s.cache).isSome then alistErase k s.cache else s.cache
  match alistLookup k s.metadata with
  | some m =>
    { s with cache := cache', metadata := alistErase k s.metadata,
             memory_usage := s.memory_usage - (m.size : Int) }
  | none => { s with cache := cache' }

/-- Embeds `IntelligentCache._evict_lru`. -/
def evictLRU {V : Type} (s : CState V) : CState V :=
  match s.cache with
  | [] => s
  | (k, _) :: _ =>
    let s' := removeKey k s
    { s' with evictions := s'.evictions + 1 }

/-- The keys collected by the expired-entry scans (iteration over
`self._metadata.items()` follows dict insertion order). -/
def expiredKeys {V : Type} (t : Int) (s : CState V) : List String :=
  (s.metadata.filter (fun km => km.2.expires_at < t)).map Prod.fst

/-- The first phase of `_free_memory`: remove the expired entries one by
one, returning early (first component `true`) once enough bytes are
freed. -/
def freeExpired {V : Type} (required : Nat) :
    List String → Nat → CState V → Bool × Nat × CState V
  | [], freed, s => (false, freed, s)
  | k :: ks, freed, s =>
    let freed' := freed + metaSize s k
    let s' := removeKey k s
    if required ≤ freed' then (true, freed', s')
    else freeExpired required ks freed' s'

/-- The second phase of `_free_memory`: `while freed < required_bytes and
self._cache:` evict the least-recently-used entry.  The loop removes the
front key each iteration, so a fuel of the cache's length always suffices
(see `freeLRU_fuel` below). -/
def freeLRU {V : Type} (required : Nat) : Nat → Nat → CState V → Nat × CState V
  | 0, freed, s => (freed, s)
  | fuel + 1, freed, s =>
    if freed < required then
      match s.cache with
      | [] => (freed, s)
      | (k, _) :: _ => freeLRU required fuel (freed + metaSize s k) (removeKey k s)
    else (freed, s)

/-- Embeds `IntelligentCache._free_memory(required_bytes)`. -/
def freeMemory {V : Type} (t : Int) (required : Nat) (s : CState V) : Bool × CState V :=
  let r1 := freeExpired required (expiredKeys t s) 0 s
  if r1.1 then (true, r1.2.2)
  else
    let r2 := freeLRU required r1.2.2.cache.length r1.2.1 r1.2.2
    (decide (required ≤ r2.1), r2.2)

/-- Embeds `IntelligentCache.get(key)` at current time `t`.  Result `none` is the
`default` return.  A hit pops the key and re-inserts it at the end of the
ordering; a missing metadata entry acts as never expired
(`float('inf')`), with the access-bookkeeping writes going to the
temporary `{}` dict. -/
def cGet {V : Type} (t : Int) (k : String) (s : CState V) : Option V × CState V :=
  match alistLookup k s.cache with
  | none => (none, { s with misses := s.misses + 1 })
  | some v =>
    match alistLookup k s.metadata with
    | some m =>
      if m.expires_at < t then
        let s' := removeKey k s
        (none, { s' with misses := s'.misses + 1 })
      else
        (some v,
         { s with cache := alistErase k s.cache ++ [(k, v)],
                  metadata := alistSet k
                    { m with last_accessed := t, access_count := m.access_count + 1 }
                    s.metadata,
                  hits := s.hits + 1 })
    | none =>
      (some v,
       { s with cache := alistErase k s.cache ++ [(k, v)], hits := s.hits + 1 })

/-- The insertion phase of `set` (lines 107–128): subtract a replaced
entry's recorded size, write the value and fresh metadata (in place for an
existing key, appended for a new one), add the new size, and evict the
least-recently-used entry if the count bound is now exceeded. -/
def setInsert {V : Type} (t : Int) (k : String) (v : V) (value_size : Nat)
    (ttl : Int) (s : CState V) : CState V :=
  let s2 :=
    if (alistLookup k s.cache).isSome then
      { s with memory_usage := s.memory_usage - (metaSize s k : Int) }
    else s
  let m : Meta := ⟨t, t + ttl, t, 1, value_size, ttl⟩
  let s3 := { s2 with cache := alistSet k v s2.cache,
                      metadata := alistSet k m s2.metadata,
                      memory_usage := s2.memory_usage + (value_size : Int) }
  if s3.max_size < s3.cache.length then evictLRU s3 else s3

/-- Embeds `IntelligentCache.set(key, value, ttl)` at current time `t`, with the
size estimator `esz` standing for `_estimate_size`.  Returns the boolean
result and the updated store — in particular, when `_free_memory` fails
the entries it removed stay removed. -/
def cSet {V : Type} (esz : V → Nat) (t : Int) (k : String) (v : V)
    (ttlOpt : Option Int) (s : CState V) : Bool × CState V :=
  let ttl := ttlOpt.getD s.default_ttl
  let value_size := esz v
  let r :=
    if s.max_memory_bytes < s.memory_usage + (value_size : Int) then
      freeMemory t value_size s
    else (true, s)
  if r.1 then (true, setInsert t k v value_size ttl r.2)
  else (false, r.2)

/-- Embeds `IntelligentCache.delete(key)`. -/
def cDelete {V : Type} (k : String) (s : CState V) : Bool × CState V :=
  if (alistLookup k s.cache).isSome then (true, removeKey k s) else (false, s)

/-- Embeds `IntelligentCache.clear()`. -/
def cClear {V : Type} (s : CState V) : CState V :=
  { s with cache := [], metadata := [], memory_usage := 0, evictions := 0 }

/-- Remove a list of keys in order (the loops of `invalidate_pattern` and
`cleanup_expired`). -/
def removeKeys {V : Type} : List String → CState V → CState V
  | [], s => s
  | k :: ks, s => removeKeys ks (removeKey k s)

/-- Embeds `IntelligentCache.invalidate_pattern`, with `pred` standing for
`regex.search`; returns the number removed and the updated store. -/
def invalidatePattern {V : Type} (pred : String → Bool) (s : CState V) :
    Nat × CState V :=
  let ks := (s.cache.filter (fun kv => pred kv.1)).map Prod.fst
  (ks.length, removeKeys ks s)

/-- Embeds `IntelligentCache.cleanup_expired()` at current time `t`. -/
def cleanupExpired {V : Type} (t : Int) (s : CState V) : Nat × CState V :=
  let ks := expiredKeys t s
  (ks.length, removeKeys ks s)

/-- Embeds `IntelligentCache._count_expired()` at current time `t`. -/
def countExpired {V : Type} (t : Int) (s : CState V) : Nat :=
  (s.metadata.filter (fun km => km.2.expires_at < t)).length

/-- Python's `round` on an exactly-representable value: round half to
even (banker's rounding). -/
def pyRound (q : ℚ) : Int :=
  let f := ⌊q⌋
  let r := q - (f : ℚ)
  if r < 1 / 2 then f
  else if 1 / 2 < r then f + 1
  else if f % 2 = 0 then f else f + 1

/-- Python's `round(x, 2)`: round to two decimal places. -/
def round2 (q : ℚ) : ℚ := (pyRound (q * 100) : ℚ) / 100

/-- The dict returned by `get_stats`. -/
structure Stats where
  size : Nat
  max_size : Nat
  memory_usage_mb : ℚ
  max_memory_mb : ℚ
  hit_rate_percent : ℚ
  hits : Nat
  misses : Nat
  evictions : Nat
  expired_items : Nat
  deriving DecidableEq

/-- Embeds `IntelligentCache.get_stats()` at current time `t` (exact rational
arithmetic in place of Python floats). -/
def getStats {V : Type} (t : Int) (s : CState V) : Stats :=
  let total : Nat := s.hits + s.misses
  let hit_rate : ℚ := if 0 < total then ((s.hits : ℚ) / (total : ℚ)) * 100 else 0
  ⟨s.cache.length, s.max_size, (s.memory_usage : ℚ) / (1024 * 1024),
   (s.max_memory_bytes : ℚ) / (1024 * 1024), round2 hit_rate,
   s.hits, s.misses, s.evictions, countExpired t s⟩

/-- The aggregate recorded size of the live entries. -/
def sumSizes (l : List (String × Meta)) : Int :=
  (l.map (fun km => (km.2.size : Int))).sum

/-- Verification helper (not a source artifact): `s'` arises from `s` by
removals only — the configuration and hit/miss/eviction counters agree and
the entry list is a sublist of the original. -/
def Shrinks {V : Type} (s' s : CState V) : Prop :=
  s'.max_size = s.max_size ∧ s'.default_ttl = s.default_ttl ∧
  s'.max_memory_bytes = s.max_memory_bytes ∧ s'.hits = s.hits ∧
  s'.misses = s.misses ∧ s'.evictions = s.evictions ∧
  List.Sublist s'.cache s.cache

/-- Well-formedness of a store state: `_cache` and `_metadata` are
duplicate-free and hold the same key set, and the `memory_usage` counter
equals the aggregate recorded size of the live entries.  Holds for
`mkCache` and is preserved by every operation. -/
def WF {V : Type} (s : CState V) : Prop :=
  (keysOf s.cache).Nodup ∧ (keysOf s.metadata).Nodup ∧
  (keysOf s.cache).Perm (keysOf s.metadata) ∧
  s.memory_usage = sumSizes s.metadata

instance {V : Type} (s : CState V) : Decidable (WF s) := by
  unfold WF
  infer_instance

end Cache

/-! ## Association list lemmas -/

theorem keysOf_nil {α : Type} : keysOf ([] : List (String × α)) = [] := rfl

theorem keysOf_cons {α : Type} (kv : String × α) (l : List (String × α)) :
    keysOf (kv :: l) = kv.1 :: keysOf l := rfl

theorem alistLookup_eq_none {α : Type} (k : String) (l : List (String × α)) :
    alistLookup k l = none ↔ k ∉ keysOf l := by
  induction l with
  | nil => simp [alistLookup, keysOf_nil]
  | cons kv rest ih =>
    obtain ⟨k', v⟩ := kv
    by_cases h : k' = k
    · subst h; simp [alistLookup, keysOf_cons]
    · have h' : k ≠ k' := fun he => h he.symm
      simp [alistLookup, keysOf_cons, h, h', ih]

theorem alistLookup_isSome {α : Type} (k : String) (l : List (String × α)) :
    (alistLookup k l).isSome = true ↔ k ∈ keysOf l := by
  induction l with
  | nil => simp [alistLookup, keysOf_nil]
  | cons kv rest ih =>
    obtain ⟨k', v⟩ := kv
    by_cases h : k' = k
    · subst h; simp [alistLookup, keysOf_cons]
    · have h' : k ≠ k' := fun he => h he.symm
      simp [alistLookup, keysOf_cons, h, h', ih]

theorem keysOf_erase {α : Type} (k : String) (l : List (String × α)) :
    keysOf (alistErase k l) = (keysOf l).filter (fun x => x ≠ k) := by
  induction l with
  | nil => rfl
  | cons kv rest ih =>
    obtain ⟨k', v⟩ := kv
    by_cases h : k' = k
    · subst h
      simpa [alistErase, keysOf_cons, List.filter_cons] using ih
    · simp [alistErase, keysOf_cons, List.filter_cons, h] at ih ⊢
      exact ih

theorem alistErase_of_not_mem {α : Type} (k : String) (l : List (String × α))
    (h : k ∉ keysOf l) : alistErase k l = l := by
  induction l with
  | nil => rfl
  | cons kv rest ih =>
    obtain ⟨k', v⟩ := kv
    have h1 : k ≠ k' ∧ k ∉ keysOf rest := by simpa [keysOf_cons] using h
    have h2 : k' ≠ k := fun he => h1.1 he.symm
    simp [alistErase, List.filter_cons, h2] at ih ⊢
    exact ih h1.2

theorem keysOf_set_of_mem {α : Type} (k : String) (v : α) (l : List (String × α))
    (h : k ∈ keysOf l) : keysOf (alistSet k v l) = keysOf l := by
  induction l with
  | nil => simp [keysOf_nil] at h
  | cons kv rest ih =>
    obtain ⟨k', v'⟩ := kv
    by_cases hk : k' = k
    · subst hk; simp [alistSet, keysOf_cons]
    · have h' : k ∈ keysOf rest := by
        rcases (by simpa [keysOf_cons] using h : k = k' ∨ k ∈ keysOf rest) with h1 | h1
        · exact absurd h1.symm hk
        · exact h1
      simp [alistSet, keysOf_cons, hk, ih h']

theorem alistSet_of_not_mem {α : Type} (k : String) (v : α) (l : List (String × α))
    (h : k ∉ keysOf l) : alistSet k v l = l ++ [(k, v)] := by
  induction l with
  | nil => rfl
  | cons kv rest ih =>
    obtain ⟨k', v'⟩ := kv
    have h1 : k ≠ k' ∧ k ∉ keysOf rest := by simpa [keysOf_cons] using h
    have h2 : k' ≠ k := fun he => h1.1 he.symm
    simp [alistSet, h2]
    exact ih h1.2

theorem alistLookup_set_self {α : Type} (k : String) (v : α) (l : List (String × α)) :
    alistLookup k (alistSet k v l) = some v := by
  induction l with
  | nil => simp [alistSet, alistLookup]
  | cons kv rest ih =>
    obtain ⟨k', v'⟩ := kv
    by_cases h : k' = k <;> simp [alistSet, alistLookup, h, ih]

theorem alistLookup_set_other {α : Type} (k k' : String) (v : α) (l : List (String × α))
    (h : k' ≠ k) : alistLookup k' (alistSet k v l) = alistLookup k' l := by
  induction l with
  | nil => simp [alistSet, alistLookup, Ne.symm h]
  | cons kv rest ih =>
    obtain ⟨ka, va⟩ := kv
    by_cases hk : ka = k
    · subst hk
      simp [alistSet, alistLookup, Ne.symm h]
    · by_cases hk' : ka = k'
      · subst hk'
        simp [alistSet, alistLookup, hk]
      · simp [alistSet, alistLookup, hk, hk', ih]

theorem alistLookup_erase_other {α : Type} (k k' : String) (l : List (String × α))
    (h : k' ≠ k) : alistLookup k' (alistErase k l) = alistLookup k' l := by
  induction l with
  | nil => rfl
  | cons kv rest ih =>
    obtain ⟨ka, va⟩ := kv
    by_cases hk : ka = k
    · subst hk
      simp [alistErase, List.filter_cons, alistLookup, Ne.symm h] at ih ⊢
      exact ih
    · by_cases hk' : ka = k'
      · subst hk'
        simp [alistErase, List.filter_cons, alistLookup, hk]
      · simp [alistErase, List.filter_cons, alistLookup, hk, hk'] at ih ⊢
        exact ih

theorem alistLookup_erase_self {α : Type} (k : String) (l : List (String × α)) :
    alistLookup k (alistErase k l) = none := by
  rw [alistLookup_eq_none, keysOf_erase]
  simp

theorem alistLookup_append_single {α : Type} (k k' : String) (v : α)
    (l : List (String × α)) :
    alistLookup k' (l ++ [(k, v)]) =
      match alistLookup k' l with
      | some w => some w
      | none => if k = k' then some v else none := by
  induction l with
  | nil => simp [alistLookup]
  | cons kv rest ih =>
    obtain ⟨ka, va⟩ := kv
    by_cases h : ka = k' <;> simp [alistLookup, h, ih]

/-! ## Generic list lemmas -/

theorem dropWhile_eq_self_of_none {p : Int → Bool} {l : List Int}
    (h : ∀ x ∈ l, p x = false) : l.dropWhile p = l := by
  cases l with
  | nil => rfl
  | cons a rest => simp [List.dropWhile_cons, h a (by simp)]

theorem dropWhile_eq_nil_of_all {p : Int → Bool} {l : List Int}
    (h : ∀ x ∈ l, p x = true) : l.dropWhile p = [] := by
  induction l with
  | nil => rfl
  | cons a rest ih =>
    have ha := h a (by simp)
    rw [List.dropWhile_cons, ha, if_pos rfl]
    exact ih (fun x hx => h x (by simp [hx]))

theorem dropWhile_lt_eq_filter (c : Int) (l : List Int)
    (h : l.Pairwise (· ≤ ·)) :
    l.dropWhile (fun x => x < c) = l.filter (fun x => c ≤ x) := by
  induction l with
  | nil => rfl
  | cons a rest ih =>
    rcases List.pairwise_cons.mp h with ⟨ha, hrest⟩
    by_cases hc : a < c
    · simp [List.dropWhile_cons, List.filter_cons, hc, not_le.mpr hc, ih hrest]
    · push_neg at hc
      have hall : rest.filter (fun x => decide (c ≤ x)) = rest :=
        List.filter_eq_self.mpr (fun x hx => by simpa using le_trans hc (ha x hx))
      simp [List.dropWhile_cons, List.filter_cons, not_lt.mpr hc, hc]
      exact hall.symm

/-! ## Rate limiter lemmas -/

theorem isAllowed_limits (t : Int) (client etype : String) (s : RL.State) :
    (RL.isAllowed t client etype s).2.limits = s.limits := by
  unfold RL.isAllowed
  by_cases h : t < (RL.clientData s client).blocked_until
  · simp [h]
  · simp only [h, if_false]
    split <;> rfl

theorem limitFor_congr {s s' : RL.State} (h : s'.limits = s.limits) (c : String) :
    RL.limitFor s' c = RL.limitFor s c := by
  unfold RL.limitFor
  rw [h]

theorem clientData_set_self (s : RL.State) (client : String) (cd : RL.ClientData) :
    RL.clientData { s with clients := alistSet client cd s.clients } client = cd := by
  unfold RL.clientData
  rw [alistLookup_set_self]
  rfl

theorem clientData_set_other (s : RL.State) (client cl : String) (cd : RL.ClientData)
    (h : cl ≠ client) :
    RL.clientData { s with clients := alistSet client cd s.clients } cl
      = RL.clientData s cl := by
  unfold RL.clientData
  rw [alistLookup_set_other client cl cd s.clients h]

theorem isAllowed_clientData_other (t : Int) (client etype cl : String)
    (s : RL.State) (h : cl ≠ client) :
    RL.clientData (RL.isAllowed t client etype s).2 cl = RL.clientData s cl := by
  unfold RL.isAllowed
  by_cases hbu : t < (RL.clientData s client).blocked_until
  · rw [if_pos hbu]
    exact clientData_set_other s client cl _ h
  · simp only [hbu, if_false]
    split
    · exact clientData_set_other s client cl _ h
    · exact clientData_set_other s client cl _ h

theorem isAllowed_sorted_step (t t0 : Int) (client etype cl : String)
    (s : RL.State)
    (hsorted : (RL.clientData s cl).requests.Pairwise (· ≤ ·))
    (hbound : ∀ x ∈ (RL.clientData s cl).requests, x ≤ t0)
    (ht : t0 ≤ t) :
    (RL.clientData (RL.isAllowed t client etype s).2 cl).requests.Pairwise (· ≤ ·) ∧
    (∀ x ∈ (RL.clientData (RL.isAllowed t client etype s).2 cl).requests, x ≤ t) := by
  by_cases hcl : cl = client
  · subst hcl
    unfold RL.isAllowed
    by_cases hbu : t < (RL.clientData s cl).blocked_until
    · rw [if_pos hbu, clientData_set_self]
      exact ⟨hsorted, fun x hx => le_trans (hbound x hx) ht⟩
    · simp only [hbu, if_false]
      have hsorted' : ((RL.clientData s cl).requests.dropWhile
          (fun x => x < t - (RL.limitFor s etype).window)).Pairwise (· ≤ ·) :=
        hsorted.sublist (List.dropWhile_sublist _)
      have hbound' : ∀ x ∈ (RL.clientData s cl).requests.dropWhile
          (fun x => x < t - (RL.limitFor s etype).window), x ≤ t :=
        fun x hx => le_trans (hbound x ((List.dropWhile_sublist _).subset hx)) ht
      by_cases hfull : (RL.limitFor s etype).requests ≤
          ((RL.clientData s cl).requests.dropWhile
            (fun x => x < t - (RL.limitFor s etype).window)).length
      · rw [if_pos hfull, clientData_set_self]
        exact ⟨hsorted', hbound'⟩
      · rw [if_neg hfull, clientData_set_self]
        constructor
        · rw [List.pairwise_append]
          exact ⟨hsorted', List.pairwise_singleton _ _,
            fun x hx y hy => by rw [List.mem_singleton.mp hy]; exact hbound' x hx⟩
        · intro x hx
          rcases List.mem_append.mp hx with hx | hx
          · exact hbound' x hx
          · rw [List.mem_singleton.mp hx]
  · rw [isAllowed_clientData_other t client etype cl s hcl]
    exact ⟨hsorted, fun x hx => le_trans (hbound x hx) ht⟩

theorem runCalls_sorted_inv :
    ∀ (calls : List (Int × String × String)) (s : RL.State) (t0 : Int),
    (∀ cl, (RL.clientData s cl).requests.Pairwise (· ≤ ·) ∧
      ∀ x ∈ (RL.clientData s cl).requests, x ≤ t0) →
    List.Chain' (· ≤ ·) (t0 :: calls.map (fun a => a.1)) →
    ∀ cl, (RL.clientData (RL.runCalls calls s) cl).requests.Pairwise (· ≤ ·) := by
  intro calls
  induction calls with
  | nil => exact fun s t0 hinv _ cl => (hinv cl).1
  | cons a rest ih =>
    intro s t0 hinv hchain cl
    rw [List.map_cons, List.chain'_cons] at hchain
    have hstep := fun cl2 => isAllowed_sorted_step a.1 t0 a.2.1 a.2.2 cl2 s
      (hinv cl2).1 (hinv cl2).2 hchain.1
    exact ih (RL.isAllowed a.1 a.2.1 a.2.2 s).2 a.1 hstep hchain.2 cl

theorem isAllowed_blocked (t : Int) (client c : String) (s : RL.State)
    (hbu : t < (RL.clientData s client).blocked_until) :
    RL.isAllowed t client c s =
      (false, { s with clients := alistSet client (RL.clientData s client) s.clients }) := by
  unfold RL.isAllowed
  simp [hbu]

theorem isAllowed_accept_step (t : Int) (client c : String) (s : RL.State)
    (N : Nat) (W : Int) (q : List Int) (bu : Int)
    (hcd : RL.clientData s client = ⟨q, bu⟩)
    (hlim : RL.limitFor s c = ⟨N, W⟩)
    (hbu : ¬ t < bu)
    (hq : ∀ x ∈ q, ¬ x < t - W)
    (hlen : q.length < N) :
    RL.isAllowed t client c s =
      (true, { s with clients := alistSet client ⟨q ++ [t], bu⟩ s.clients }) := by
  unfold RL.isAllowed
  rw [hcd, hlim]
  have hdrop : q.dropWhile (fun x => x < t - W) = q :=
    dropWhile_eq_self_of_none (fun x hx => by simpa using hq x hx)
  simp only [hbu, if_false, hdrop]
  rw [if_neg (not_le.mpr hlen)]

theorem isAllowed_reject_full (t : Int) (client c : String) (s : RL.State)
    (N : Nat) (W : Int) (q : List Int) (bu : Int)
    (hcd : RL.clientData s client = ⟨q, bu⟩)
    (hlim : RL.limitFor s c = ⟨N, W⟩)
    (hbu : ¬ t < bu)
    (hq : ∀ x ∈ q, ¬ x < t - W)
    (hlen : N ≤ q.length) :
    RL.isAllowed t client c s =
      (false, { s with clients := alistSet client ⟨q, t + 2 * W⟩ s.clients }) := by
  unfold RL.isAllowed
  rw [hcd, hlim]
  have hdrop : q.dropWhile (fun x => x < t - W) = q :=
    dropWhile_eq_self_of_none (fun x hx => by simpa using hq x hx)
  simp only [hbu, if_false, hdrop]
  rw [if_pos hlen]

theorem isAllowed_fresh_window (t : Int) (client c : String) (s : RL.State)
    (N : Nat) (W : Int) (q : List Int) (bu : Int)
    (hcd : RL.clientData s client = ⟨q, bu⟩)
    (hlim : RL.limitFor s c = ⟨N, W⟩)
    (hbu : ¬ t < bu)
    (hq : ∀ x ∈ q, x < t - W)
    (hN : 0 < N) :
    RL.isAllowed t client c s =
      (true, { s with clients := alistSet client ⟨[t], bu⟩ s.clients }) := by
  unfold RL.isAllowed
  rw [hcd, hlim]
  have hdrop : q.dropWhile (fun x => x < t - W) = [] :=
    dropWhile_eq_nil_of_all (fun x hx => by simpa using hq x hx)
  simp only [hbu, if_false, hdrop]
  rw [if_neg (by simp; omega)]
  simp

theorem runSeq_accepts (client c : String) (N : Nat) (W tB : Int)
    (ts : List Int) :
    ∀ (s : RL.State) (pre : List Int),
    RL.clientData s client = ⟨pre, 0⟩ →
    RL.limitFor s c = ⟨N, W⟩ →
    pre.length + ts.length ≤ N →
    (∀ x ∈ pre, tB - W ≤ x ∧ x ≤ tB) →
    (∀ x ∈ ts, tB - W ≤ x ∧ x ≤ tB) →
    0 ≤ tB - W →
    (RL.runSeq client c ts s).1 = List.replicate ts.length true ∧
    RL.clientData (RL.runSeq client c ts s).2 client = ⟨pre ++ ts, 0⟩ ∧
    (RL.runSeq client c ts s).2.limits = s.limits := by
  induction ts with
  | nil =>
    intro s pre hcd hlim _ _ _ _
    simpa [RL.runSeq] using hcd
  | cons t ts ih =>
    intro s pre hcd hlim hlen hpre hts hnn
    have ht := hts t (by simp)
    have hstep := isAllowed_accept_step t client c s N W pre 0 hcd hlim
      (by omega)
      (fun x hx => by have := hpre x hx; omega)
      (by simp at hlen; omega)
    have hcd' : RL.clientData (RL.isAllowed t client c s).2 client = ⟨pre ++ [t], 0⟩ := by
      rw [hstep]; exact clientData_set_self _ _ _
    have hlimeq : (RL.isAllowed t client c s).2.limits = s.limits := isAllowed_limits _ _ _ _
    have hlim' : RL.limitFor (RL.isAllowed t client c s).2 c = ⟨N, W⟩ := by
      rw [limitFor_congr hlimeq]; exact hlim
    have hrec := ih (RL.isAllowed t client c s).2 (pre ++ [t]) hcd' hlim'
      (by simp at hlen ⊢; omega)
      (by intro x hx
          rcases List.mem_append.mp hx with hx | hx
          · exact hpre x hx
          · simpa [List.mem_singleton.mp hx] using ht)
      (fun x hx => hts x (by simp [hx]))
      hnn
    refine ⟨?_, ?_, ?_⟩
    · show (RL.isAllowed t client c s).1 :: (RL.runSeq client c ts (RL.isAllowed t client c s).2).1 = _
      rw [hrec.1, hstep]
      simp [List.replicate_succ]
    · show RL.clientData (RL.runSeq client c ts (RL.isAllowed t client c s).2).2 client = _
      rw [hrec.2.1]
      simp
    · show (RL.runSeq client c ts (RL.isAllowed t client c s).2).2.limits = _
      rw [hrec.2.2, hlimeq]

/-! ## Claim C2: admission state is shared across categories, not per (client, category) -/

/-- C2 (counterexample): admission-control state is NOT kept per
(clientId, category).  A fresh client makes five admitted requests under
the `api` category; its very first `auth`-category check is then rejected
(and the client is blocked), even though no request was ever made under
`auth` — so requests admitted under one category do count toward another
category's in-window occupancy, refuting the claim. -/
theorem c2_per_category_state_counterexample :
    (RL.runSeq "c" "api" [0, 0, 0, 0, 0] RL.initState).1
      = [true, true, true, true, true] ∧
    (RL.isAllowed 0 "c" "auth" (RL.runSeq "c" "api" [0, 0, 0, 0, 0] RL.initState).2).1
      = false ∧
    RL.clientData
        (RL.isAllowed 0 "c" "auth" (RL.runSeq "c" "api" [0, 0, 0, 0, 0] RL.initState).2).2
        "c"
      = ⟨[0, 0, 0, 0, 0], 600⟩ := by
  decide

/-- C2 (amended): admission state is keyed per clientId only.  Each client
has a single timestamp sequence shared by all categories: a check under
category `c` is accepted exactly when the client is not blocked and the
number of the client's admitted requests still inside `c`'s window —
regardless of the category each was admitted under — is below `c`'s own
`maxRequests`; each category still applies its own
`(maxRequests, windowSize)` pair to that shared sequence.  The
characterization's sortedness side condition holds of every reachable
state: any sequence of `is_allowed` calls with nondecreasing clock
readings, starting from a fresh limiter, leaves every client's recorded
timestamp sequence sorted (second conjunct). -/
theorem c2_shared_window_characterization (t : Int) (client c : String) :
    (∀ s : RL.State,
      (RL.clientData s client).requests.Pairwise (· ≤ ·) →
      ((RL.isAllowed t client c s).1 = true ↔
        ((RL.clientData s client).blocked_until ≤ t ∧
         ((RL.clientData s client).requests.filter
             (fun x => t - (RL.limitFor s c).window ≤ x)).length
           < (RL.limitFor s c).requests))) ∧
    (∀ calls : List (Int × String × String),
      List.Chain' (· ≤ ·) (calls.map (fun a => a.1)) →
      (RL.clientData (RL.runCalls calls RL.initState) client).requests.Pairwise
        (· ≤ ·)) := by
  constructor
  · intro s hsorted
    unfold RL.isAllowed
    by_cases hbu : t < (RL.clientData s client).blocked_until
    · simp [hbu, not_le.mpr hbu]
    · have hdrop := dropWhile_lt_eq_filter (t - (RL.limitFor s c).window)
        (RL.clientData s client).requests hsorted
      simp only [hbu, if_false, hdrop]
      by_cases hfull : (RL.limitFor s c).requests ≤
          ((RL.clientData s client).requests.filter
            (fun x => t - (RL.limitFor s c).window ≤ x)).length
      · rw [if_pos hfull]
        simp
        intro _
        simpa using hfull
      · rw [if_neg hfull]
        simp [not_lt.mp hbu]
        simpa using hfull
  · intro calls hchain
    cases calls with
    | nil =>
      simp [RL.runCalls, RL.clientData, RL.initState, alistLookup, RL.defaultClient]
    | cons a rest =>
      refine runCalls_sorted_inv (a :: rest) RL.initState a.1 ?_ ?_ client
      · intro cl
        constructor
        · simp [RL.clientData, RL.initState, alistLookup, RL.defaultClient]
        · intro x hx
          simp [RL.clientData, RL.initState, alistLookup, RL.defaultClient] at hx
      · rw [List.map_cons, List.chain'_cons]
        rw [List.map_cons] at hchain
        exact ⟨le_refl _, hchain⟩

/-- Witness for `c2_shared_window_characterization` at a concrete state:
one admitted `api` request at time 0, then an `auth` check at time 10; and
a concrete monotone two-call trace for the sortedness conjunct. -/
theorem c2_shared_window_characterization_witness :
    ((RL.clientData (RL.isAllowed 0 "c" "api" RL.initState).2 "c").requests.Pairwise
        (· ≤ ·) ∧
      ((RL.isAllowed 10 "c" "auth" (RL.isAllowed 0 "c" "api" RL.initState).2).1 = true ↔
        ((RL.clientData (RL.isAllowed 0 "c" "api" RL.initState).2 "c").blocked_until ≤ 10 ∧
         ((RL.clientData (RL.isAllowed 0 "c" "api" RL.initState).2 "c").requests.filter
             (fun x => 10 - (RL.limitFor (RL.isAllowed 0 "c" "api" RL.initState).2
                "auth").window ≤ x)).length
           < (RL.limitFor (RL.isAllowed 0 "c" "api" RL.initState).2 "auth").requests))) ∧
    (List.Chain' (· ≤ ·)
        (([((0 : Int), "c", "api"), ((10 : Int), "c", "auth")].map (fun a => a.1))) ∧
      (RL.clientData
          (RL.runCalls [((0 : Int), "c", "api"), ((10 : Int), "c", "auth")] RL.initState)
          "c").requests.Pairwise (· ≤ ·)) :=
  ⟨⟨by decide,
    (c2_shared_window_characterization 10 "c" "auth").1
      (RL.isAllowed 0 "c" "api" RL.initState).2 (by decide)⟩,
   ⟨by simp [List.chain'_cons],
    (c2_shared_window_characterization 10 "c" "auth").2
      [((0 : Int), "c", "api"), ((10 : Int), "c", "auth")]
      (by simp [List.chain'_cons])⟩⟩

/-! ## Claim C4: accept N, reject and block on N+1, reject while blocked, fresh window after -/

/-- C4: with limit `N` per window `W` for category `c` and a client with no
history, the `N` admission checks at times `ts` (all within window reach of
the `N+1`-st check time `tB`) are all accepted; the check at `tB` is
rejected and sets `blockedUntil = tB + 2W` while the recorded window is
left at `ts`; every check strictly before `tB + 2W` is rejected without
changing the client's state; and any check at or after `tB + 2W` is
accepted with a fresh window containing only its own timestamp. -/
theorem c4_window_block_cycle (s : RL.State) (client c : String) (N : Nat)
    (W tB : Int) (ts : List Int) (s1 : RL.State) (r2 : Bool × RL.State)
    (hfresh : alistLookup client s.clients = none)
    (hlim : RL.limitFor s c = ⟨N, W⟩)
    (hN : 0 < N) (hW : 0 < W) (hWtB : W ≤ tB)
    (hlen : ts.length = N)
    (hts : ∀ x ∈ ts, tB - W ≤ x ∧ x ≤ tB)
    (hs1 : s1 = (RL.runSeq client c ts s).2)
    (hr2 : r2 = RL.isAllowed tB client c s1) :
    (RL.runSeq client c ts s).1 = List.replicate N true ∧
    r2.1 = false ∧
    RL.clientData r2.2 client = ⟨ts, tB + 2 * W⟩ ∧
    (∀ u, u < tB + 2 * W →
      (RL.isAllowed u client c r2.2).1 = false ∧
      RL.clientData (RL.isAllowed u client c r2.2).2 client = ⟨ts, tB + 2 * W⟩) ∧
    (∀ u, tB + 2 * W ≤ u →
      (RL.isAllowed u client c r2.2).1 = true ∧
      RL.clientData (RL.isAllowed u client c r2.2).2 client = ⟨[u], tB + 2 * W⟩) := by
  have hcd0 : RL.clientData s client = ⟨[], 0⟩ := by
    unfold RL.clientData
    rw [hfresh]
    rfl
  have hrun := runSeq_accepts client c N W tB ts s [] hcd0 hlim
    (by simpa using hlen.le) (by intro x hx; simp at hx) hts (by omega)
  have hcd1 : RL.clientData s1 client = ⟨ts, 0⟩ := by
    rw [hs1]
    simpa using hrun.2.1
  have hlim1 : RL.limitFor s1 c = ⟨N, W⟩ := by
    rw [hs1, limitFor_congr hrun.2.2]
    exact hlim
  have hstep2 := isAllowed_reject_full tB client c s1 N W ts 0 hcd1 hlim1
    (by omega)
    (fun x hx => by have := hts x hx; omega)
    (by omega)
  have hcd2 : RL.clientData r2.2 client = ⟨ts, tB + 2 * W⟩ := by
    rw [hr2, hstep2]
    exact clientData_set_self _ _ _
  have hlim2 : RL.limitFor r2.2 c = ⟨N, W⟩ := by
    have : r2.2.limits = s1.limits := by
      rw [hr2]
      exact isAllowed_limits _ _ _ _
    rw [limitFor_congr this]
    exact hlim1
  refine ⟨by rw [← hlen]; exact hrun.1, by rw [hr2, hstep2], hcd2, ?_, ?_⟩
  · intro u hu
    have hblocked := isAllowed_blocked u client c r2.2 (by rw [hcd2]; exact hu)
    constructor
    · rw [hblocked]
    · rw [hblocked, clientData_set_self, hcd2]
  · intro u hu
    have hacc := isAllowed_fresh_window u client c r2.2 N W ts (tB + 2 * W) hcd2 hlim2
      (by omega)
      (fun x hx => by have := hts x hx; omega)
      hN
    constructor
    · rw [hacc]
    · rw [hacc, clientData_set_self]

/-- Witness for `c4_window_block_cycle`: the `heavy` category
(5 requests per 60 s) with five admitted checks at times 50…90, the sixth
at `tB = 100` blocking until 220, a rejected check at 150 and an accepted
fresh-window check at 220. -/
theorem c4_window_block_cycle_witness :
    (RL.runSeq "c" "heavy" [50, 60, 70, 80, 90] RL.initState).1
      = List.replicate 5 true ∧
    (RL.isAllowed 100 "c" "heavy"
        (RL.runSeq "c" "heavy" [50, 60, 70, 80, 90] RL.initState).2).1 = false ∧
    RL.clientData
        (RL.isAllowed 100 "c" "heavy"
          (RL.runSeq "c" "heavy" [50, 60, 70, 80, 90] RL.initState).2).2 "c"
      = ⟨[50, 60, 70, 80, 90], 220⟩ ∧
    (RL.isAllowed 150 "c" "heavy"
        (RL.isAllowed 100 "c" "heavy"
          (RL.runSeq "c" "heavy" [50, 60, 70, 80, 90] RL.initState).2).2).1 = false ∧
    (RL.isAllowed 220 "c" "heavy"
        (RL.isAllowed 100 "c" "heavy"
          (RL.runSeq "c" "heavy" [50, 60, 70, 80, 90] RL.initState).2).2).1 = true := by
  have h := c4_window_block_cycle RL.initState "c" "heavy" 5 60 100
    [50, 60, 70, 80, 90]
    (RL.runSeq "c" "heavy" [50, 60, 70, 80, 90] RL.initState).2
    (RL.isAllowed 100 "c" "heavy"
      (RL.runSeq "c" "heavy" [50, 60, 70, 80, 90] RL.initState).2)
    (by decide) (by decide) (by decide) (by decide) (by decide) (by decide)
    (by decide) rfl rfl
  exact ⟨h.1, h.2.1, h.2.2.1, (h.2.2.2.1 150 (by decide)).1, (h.2.2.2.2 220 (by decide)).1⟩

/-! ## Claim C9: sequential proxy rotation and the disabled/empty cases -/

/-- C9: with proxies enabled, rotation mode `sequential` and a fixed list
of three proxies, four successive selections starting at cursor 0 return
the proxies at indices 0, 1, 2, 0 (the cursor advancing modulo the list
length); and whenever proxies are disabled or the configured list is
empty, selection returns "no proxy" (and leaves the cursor unchanged)
whatever the rotation mode. -/
theorem c9_sequential_rotation (pick : List String → String) (p0 p1 p2 : String) :
    Proxy.runProxy pick ⟨true, "sequential", [p0, p1, p2]⟩ 0 4
      = [.ok (some p0), .ok (some p1), .ok (some p2), .ok (some p0)] ∧
    (∀ (en : Bool) (m : String) (l : List String) (idx : Nat),
      en = false ∨ l = [] →
      Proxy.getProxy pick ⟨en, m, l⟩ idx = (.ok none, idx)) := by
  constructor
  · have h1 : ¬ ("sequential" = "random") := by decide
    norm_num [Proxy.runProxy, Proxy.getProxy, h1]
  · intro en m l idx h
    rcases h with h | h <;> subst h <;> simp [Proxy.getProxy]

/-- Witness for `c9_sequential_rotation`: a disabled configuration returns
"no proxy", and the three-proxy rotation at concrete proxies. -/
theorem c9_sequential_rotation_witness :
    (false = false ∨ (["x"] : List String) = []) ∧
    Proxy.getProxy (fun l => l.headD "") ⟨false, "random", ["x"]⟩ 7 = (.ok none, 7) ∧
    Proxy.runProxy (fun l => l.headD "") ⟨true, "sequential", ["a", "b", "c"]⟩ 0 4
      = [.ok (some "a"), .ok (some "b"), .ok (some "c"), .ok (some "a")] :=
  ⟨Or.inl rfl,
   (c9_sequential_rotation (fun l => l.headD "") "a" "b" "c").2 false "random" ["x"] 7
     (Or.inl rfl),
   (c9_sequential_rotation (fun l => l.headD "") "a" "b" "c").1⟩

/-! ## Claim C10: a stale cursor after the list shrinks raises IndexError -/

/-- C10: sequential proxy selection is not total over reachable states.
Because the proxy list is re-read from the mutable configuration on every
selection (`get_proxy` calls `ConfigHandler.get_proxies`, which reloads
`config.json` from disk each time) while the rotation cursor persists
across calls, a configuration that shrinks between calls strands the
cursor: two selections against a three-proxy configuration advance the
cursor to 2, and once the re-read configuration holds a single proxy —
the shrink comes from the configuration source itself; the in-process
mutators `add_proxy`/`delete_proxy` re-acquire the non-reentrant
`threading.Lock` inside `_load_config` and never return — the next
selection indexes the one-element list at the stale cursor 2 and raises
`IndexError` instead of returning a proxy or "no proxy", leaving the
cursor unadvanced. -/
theorem c10_stale_cursor_index_error :
    Proxy.runProxyConfigs (fun l => l.headD "")
        [⟨true, "sequential", ["p0", "p1", "p2"]⟩,
         ⟨true, "sequential", ["p0", "p1", "p2"]⟩,
         ⟨true, "sequential", ["p0"]⟩] 0
      = ([.ok (some "p0"), .ok (some "p1"), .indexError], 2) ∧
    (["p0"] : List String).length ≤ 2 := by
  decide

/-! ## Worker lemmas and claim C1 -/

theorem addHist_ok (env : Worker.WorkerEnv) (job : Worker.Job) (opp : Nat)
    (action : String) (evs : List Worker.Event) (pid : Nat)
    (hp : job.profile_id = some pid)
    (hh : ∀ o a p, env.addHistoryExc o a p = none) :
    Worker.addHist env job opp action evs
      = (evs ++ [Worker.Event.history opp action pid], none) := by
  simp [Worker.addHist, hp, hh]

theorem innerStep_eq_of_ok (env : Worker.WorkerEnv) (job : Worker.Job)
    (opp : Nat) (url : String) (evs : List Worker.Event)
    (htb : Worker.tryBlock env job opp url = (evs, none)) :
    Worker.innerStep env job opp url = (evs, none) := by
  simp [Worker.innerStep, htb]

theorem innerStep_eq_of_fail (env : Worker.WorkerEnv) (job : Worker.Job)
    (opp : Nat) (url : String) (pid : Nat) (evs : List Worker.Event)
    (e : Worker.PyExc)
    (hp : job.profile_id = some pid)
    (hdb : ∀ o st m, env.updateStatusExc o st m = none)
    (hh : ∀ o a p, env.addHistoryExc o a p = none)
    (htb : Worker.tryBlock env job opp url = (evs, some e)) :
    Worker.innerStep env job opp url =
      (evs ++
        [Worker.Event.status opp "failed" ("Erreur système inattendue: " ++ Worker.excMsg e),
         Worker.Event.history opp "failed" pid], none) := by
  simp [Worker.innerStep, htb, hdb, addHist_ok env job opp "failed" _ pid hp hh]

theorem innerStep_no_escape (env : Worker.WorkerEnv) (job : Worker.Job)
    (opp : Nat) (url : String) (pid : Nat)
    (hp : job.profile_id = some pid)
    (hdb : ∀ o st m, env.updateStatusExc o st m = none)
    (hh : ∀ o a p, env.addHistoryExc o a p = none) :
    (Worker.innerStep env job opp url).2 = none ∧
    (∀ e, (Worker.tryBlock env job opp url).2 = some e →
      Worker.Event.status opp "failed" ("Erreur système inattendue: " ++ Worker.excMsg e)
        ∈ (Worker.innerStep env job opp url).1) := by
  rcases htb : Worker.tryBlock env job opp url with ⟨evs, exc⟩
  cases exc with
  | none =>
    rw [innerStep_eq_of_ok env job opp url evs htb]
    refine ⟨rfl, fun e he => ?_⟩
    simp at he
  | some e =>
    rw [innerStep_eq_of_fail env job opp url pid evs e hp hdb hh htb]
    refine ⟨rfl, fun e' he' => ?_⟩
    have : e = e' := by simpa using he'
    subst this
    simp

theorem processJob_decomp (env : Worker.WorkerEnv) (job : Worker.Job)
    (opp : Nat) (url : String) (ud : String)
    (hopp : job.id = some opp) (hurl : job.url = some url)
    (hud : job.userData = some ud)
    (hdb : ∀ o st m, env.updateStatusExc o st m = none)
    (hinner : (Worker.innerStep env job opp url).2 = none) :
    Worker.processJob env job =
      ([Worker.Event.status opp "processing" env.waitMessage,
        Worker.Event.status opp "processing" "Démarrage de la participation via Puppeteer."]
        ++ (Worker.innerStep env job opp url).1 ++ [Worker.Event.taskDone], none) := by
  rcases hI : Worker.innerStep env job opp url with ⟨evsI, excI⟩
  rw [hI] at hinner
  simp only at hinner
  subst hinner
  simp [Worker.processJob, hopp, hurl, hud, hdb, hI]

/-- C1 (counterexample): a malformed job payload is NOT caught at the job
level.  In an environment where every external interaction succeeds, a
queued job lacking the `id` field makes the worker raise `KeyError('id')`
out of the loop (only `queue.Empty` is caught there): no `Failed` status
or history entry is recorded for it, and the well-formed job queued behind
it is never processed — only one iteration record exists. -/
theorem c1_job_level_catch_counterexample :
    Worker.workerRun Worker.benignEnv [Worker.jobMissingId, Worker.goodJob]
      = ([[]], some (.keyError "id")) ∧
    Worker.jobMissingId.id = none ∧
    (Worker.workerRun Worker.benignEnv [Worker.jobMissingId, Worker.goodJob]).1.length
      ≠ [Worker.jobMissingId, Worker.goodJob].length := by
  decide

/-- C1 (amended): failures raised inside the inner per-job `try` — proxy
selection, the external call (exhausted retries, malformed response
payloads) and result handling — are caught at the job level, recorded as a
`Failed` status with a descriptive entry, and do not terminate the worker
loop, PROVIDED every queued job carries the `id`, `url`, `userData` and
`profile_id` fields and the persistence calls (status updates, history and
confirmation writes) never raise; under those conditions the worker
processes every queued job.  (A payload missing one of those fields, or a
persistence failure outside the inner `try` — including in its `except`
handler — escapes and kills the loop, as the counterexample shows.) -/
theorem c1_inner_failures_caught (env : Worker.WorkerEnv) (jobs : List Worker.Job)
    (hjobs : ∀ j ∈ jobs, j.id.isSome ∧ j.url.isSome ∧ j.userData.isSome ∧
      j.profile_id.isSome)
    (hdb : ∀ o st m, env.updateStatusExc o st m = none)
    (hh : ∀ o a p, env.addHistoryExc o a p = none) :
    (Worker.workerRun env jobs).2 = none ∧
    (Worker.workerRun env jobs).1.length = jobs.length ∧
    (∀ j ∈ jobs, ∀ opp url e, j.id = some opp → j.url = some url →
      (Worker.tryBlock env j opp url).2 = some e →
      Worker.Event.status opp "failed" ("Erreur système inattendue: " ++ Worker.excMsg e)
        ∈ (Worker.processJob env j).1) := by
  have hjob : ∀ j ∈ jobs, (Worker.processJob env j).2 = none := by
    intro j hj
    obtain ⟨hid, hurl, hud, hp⟩ := hjobs j hj
    obtain ⟨opp, hopp⟩ := Option.isSome_iff_exists.mp hid
    obtain ⟨url, hurl'⟩ := Option.isSome_iff_exists.mp hurl
    obtain ⟨ud, hud'⟩ := Option.isSome_iff_exists.mp hud
    obtain ⟨pid, hp'⟩ := Option.isSome_iff_exists.mp hp
    rw [processJob_decomp env j opp url ud hopp hurl' hud' hdb
      (innerStep_no_escape env j opp url pid hp' hdb hh).1]
  refine ⟨?_, ?_, ?_⟩
  · clear hjobs
    induction jobs with
    | nil => rfl
    | cons j js ih =>
      have h1 := hjob j (by simp)
      rcases hpj : Worker.processJob env j with ⟨evs, exc⟩
      rw [hpj] at h1
      simp only at h1
      subst h1
      have h2 := ih (fun j hj => hjob j (by simp [hj]))
      simp [Worker.workerRun, hpj, h2]
  · clear hjobs
    induction jobs with
    | nil => rfl
    | cons j js ih =>
      have h1 := hjob j (by simp)
      rcases hpj : Worker.processJob env j with ⟨evs, exc⟩
      rw [hpj] at h1
      simp only at h1
      subst h1
      have h2 := ih (fun j hj => hjob j (by simp [hj]))
      simp [Worker.workerRun, hpj, h2]
  · intro j hj opp url e hopp hurl' htb
    obtain ⟨hid, hurlS, hud, hp⟩ := hjobs j hj
    obtain ⟨ud, hud'⟩ := Option.isSome_iff_exists.mp hud
    obtain ⟨pid, hp'⟩ := Option.isSome_iff_exists.mp hp
    have hns := innerStep_no_escape env j opp url pid hp' hdb hh
    rw [processJob_decomp env j opp url ud hopp hurl' hud' hdb hns.1]
    have := hns.2 e htb
    simp [this]

/-- Witness for `c1_inner_failures_caught`: a single well-formed job in an
environment whose scraper call always raises; the failure is caught,
recorded, and the loop survives. -/
theorem c1_inner_failures_caught_witness :
    (Worker.workerRun Worker.scraperFailEnv [Worker.goodJob]).2 = none ∧
    (Worker.workerRun Worker.scraperFailEnv [Worker.goodJob]).1.length = 1 ∧
    Worker.Event.status 2 "failed" ("Erreur système inattendue: " ++ "boom")
      ∈ (Worker.processJob Worker.scraperFailEnv Worker.goodJob).1 := by
  have h := c1_inner_failures_caught Worker.scraperFailEnv [Worker.goodJob]
    (by decide) (fun _ _ _ => rfl) (fun _ _ _ => rfl)
  exact ⟨h.1, h.2.1,
    h.2.2 Worker.goodJob (by simp) 2 "http://b" (.exc "boom") rfl rfl rfl⟩

/-! ## Cache lemmas: sizes, removal, well-formedness -/

theorem sumSizes_nil : Cache.sumSizes [] = 0 := rfl

theorem sumSizes_cons (kv : String × Cache.Meta) (l : List (String × Cache.Meta)) :
    Cache.sumSizes (kv :: l) = (kv.2.size : Int) + Cache.sumSizes l := by
  simp [Cache.sumSizes]

theorem alistErase_cons_self {α : Type} (k : String) (v : α) (rest : List (String × α))
    (h : k ∉ keysOf rest) : alistErase k ((k, v) :: rest) = rest := by
  have h2 := alistErase_of_not_mem k rest h
  simp only [alistErase, List.filter_cons] at h2 ⊢
  simp [h2]
  intro a b hab he
  exact h (he ▸ List.mem_map_of_mem Prod.fst hab)

theorem alistErase_cons_ne {α : Type} (k k1 : String) (v : α)
    (rest : List (String × α)) (h : k1 ≠ k) :
    alistErase k ((k1, v) :: rest) = (k1, v) :: alistErase k rest := by
  simp only [alistErase, List.filter_cons]
  simp [h]

theorem sumSizes_erase (k : String) (l : List (String × Cache.Meta)) (m : Cache.Meta)
    (hnd : (keysOf l).Nodup) (hm : alistLookup k l = some m) :
    Cache.sumSizes (alistErase k l) = Cache.sumSizes l - (m.size : Int) := by
  induction l with
  | nil => cases hm
  | cons kv rest ih =>
    obtain ⟨k1, m1⟩ := kv
    rw [keysOf_cons, List.nodup_cons] at hnd
    by_cases h1 : k1 = k
    · subst h1
      rw [alistLookup, if_pos rfl] at hm
      have hm1 : m1 = m := by injection hm
      subst hm1
      rw [alistErase_cons_self k1 m1 rest hnd.1, sumSizes_cons]
      dsimp only
      omega
    · rw [alistLookup, if_neg h1] at hm
      rw [alistErase_cons_ne k k1 m1 rest h1, sumSizes_cons, sumSizes_cons, ih hnd.2 hm]
      dsimp only
      omega

theorem sumSizes_set_none (k : String) (l : List (String × Cache.Meta)) (m : Cache.Meta)
    (hm : alistLookup k l = none) :
    Cache.sumSizes (alistSet k m l) = Cache.sumSizes l + (m.size : Int) := by
  rw [alistSet_of_not_mem k m l ((alistLookup_eq_none k l).mp hm)]
  simp [Cache.sumSizes]

theorem sumSizes_set_some (k : String) (l : List (String × Cache.Meta))
    (m old : Cache.Meta) (hnd : (keysOf l).Nodup) (hm : alistLookup k l = some old) :
    Cache.sumSizes (alistSet k m l) =
      Cache.sumSizes l - (old.size : Int) + (m.size : Int) := by
  induction l with
  | nil => cases hm
  | cons kv rest ih =>
    obtain ⟨k1, m1⟩ := kv
    rw [keysOf_cons, List.nodup_cons] at hnd
    by_cases h1 : k1 = k
    · subst h1
      rw [alistLookup, if_pos rfl] at hm
      have hm1 : m1 = old := by injection hm
      subst hm1
      rw [alistSet, if_pos rfl, sumSizes_cons, sumSizes_cons]
      dsimp only
      omega
    · rw [alistLookup, if_neg h1] at hm
      rw [alistSet, if_neg h1, sumSizes_cons, sumSizes_cons, ih hnd.2 hm]
      dsimp only
      omega

theorem nodup_keys_erase {α : Type} (k : String) (l : List (String × α))
    (h : (keysOf l).Nodup) : (keysOf (alistErase k l)).Nodup := by
  rw [keysOf_erase]
  exact h.filter _

theorem nodup_keys_set {α : Type} (k : String) (v : α) (l : List (String × α))
    (h : (keysOf l).Nodup) : (keysOf (alistSet k v l)).Nodup := by
  by_cases hk : k ∈ keysOf l
  · rw [keysOf_set_of_mem k v l hk]
    exact h
  · rw [alistSet_of_not_mem k v l hk]
    have : keysOf (l ++ [(k, v)]) = keysOf l ++ [k] := by
      simp [keysOf]
    rw [this]
    simp [List.nodup_append, h, hk]

theorem keysOf_append {α : Type} (l₁ l₂ : List (String × α)) :
    keysOf (l₁ ++ l₂) = keysOf l₁ ++ keysOf l₂ := by
  simp [keysOf]

theorem mem_keys_of_lookup {α : Type} {k : String} {l : List (String × α)} {v : α}
    (h : alistLookup k l = some v) : k ∈ keysOf l := by
  have : (alistLookup k l).isSome := by rw [h]; rfl
  exact (alistLookup_isSome k l).mp this

theorem lookup_isSome_of_perm {α β : Type} {lc : List (String × α)}
    {lm : List (String × β)} (hperm : (keysOf lc).Perm (keysOf lm)) (k : String) :
    (alistLookup k lc).isSome ↔ (alistLookup k lm).isSome := by
  rw [alistLookup_isSome, alistLookup_isSome]
  exact ⟨fun h => hperm.mem_iff.mp h, fun h => hperm.mem_iff.mpr h⟩

theorem lookup_meta_of_cache {V : Type} {s : Cache.CState V} (h : Cache.WF s)
    {k : String} {v : V} (hc : alistLookup k s.cache = some v) :
    ∃ m, alistLookup k s.metadata = some m := by
  have h1 : (alistLookup k s.cache).isSome := by rw [hc]; rfl
  have h2 := (lookup_isSome_of_perm h.2.2.1 k).mp h1
  exact Option.isSome_iff_exists.mp h2

theorem lookup_cache_none_of_meta_none {V : Type} {s : Cache.CState V}
    (h : Cache.WF s) {k : String} (hm : alistLookup k s.metadata = none) :
    alistLookup k s.cache = none := by
  by_contra hc
  obtain ⟨v, hv⟩ := Option.ne_none_iff_exists'.mp hc
  obtain ⟨m, hm'⟩ := lookup_meta_of_cache h hv
  rw [hm] at hm'
  cases hm'

theorem removeKey_eq_none {V : Type} (k : String) (s : Cache.CState V)
    (hm : alistLookup k s.metadata = none) :
    Cache.removeKey k s =
      { s with
        cache := if (alistLookup k s.cache).isSome then alistErase k s.cache else s.cache } := by
  unfold Cache.removeKey
  rw [hm]

theorem removeKey_eq_some {V : Type} (k : String) (s : Cache.CState V) (m : Cache.Meta)
    (hm : alistLookup k s.metadata = some m) :
    Cache.removeKey k s =
      { s with
        cache := if (alistLookup k s.cache).isSome then alistErase k s.cache else s.cache,
        metadata := alistErase k s.metadata,
        memory_usage := s.memory_usage - (m.size : Int) } := by
  unfold Cache.removeKey
  rw [hm]

theorem WF_removeKey {V : Type} (k : String) (s : Cache.CState V) (h : Cache.WF s) :
    Cache.WF (Cache.removeKey k s) := by
  obtain ⟨hnc, hnm, hperm, hmem⟩ := h
  cases hm : alistLookup k s.metadata with
  | none =>
    have hc : alistLookup k s.cache = none :=
      lookup_cache_none_of_meta_none ⟨hnc, hnm, hperm, hmem⟩ hm
    rw [removeKey_eq_none k s hm]
    rw [hc]
    exact ⟨hnc, hnm, hperm, hmem⟩
  | some m =>
    have hcS : (alistLookup k s.cache).isSome := by
      refine (lookup_isSome_of_perm hperm k).mpr ?_
      rw [hm]
      rfl
    rw [removeKey_eq_some k s m hm, if_pos hcS]
    refine ⟨?_, ?_, ?_, ?_⟩
    · show (keysOf (alistErase k s.cache)).Nodup
      exact nodup_keys_erase k _ hnc
    · show (keysOf (alistErase k s.metadata)).Nodup
      exact nodup_keys_erase k _ hnm
    · show (keysOf (alistErase k s.cache)).Perm (keysOf (alistErase k s.metadata))
      rw [keysOf_erase, keysOf_erase]
      exact hperm.filter _
    · show s.memory_usage - (m.size : Int) = Cache.sumSizes (alistErase k s.metadata)
      rw [sumSizes_erase k s.metadata m hnm hm, hmem]

/-! ## Cache lemmas: frames, shrinking and memory reclamation -/

theorem alistErase_cons_head {α : Type} (k : String) (v : α)
    (rest : List (String × α)) :
    alistErase k ((k, v) :: rest) = alistErase k rest := by
  simp [alistErase, List.filter_cons]

theorem removeKey_cache {V : Type} (k : String) (s : Cache.CState V) :
    (Cache.removeKey k s).cache =
      if (alistLookup k s.cache).isSome then alistErase k s.cache else s.cache := by
  cases hm : alistLookup k s.metadata with
  | none => rw [removeKey_eq_none k s hm]
  | some m => rw [removeKey_eq_some k s m hm]

theorem removeKey_metadata {V : Type} (k : String) (s : Cache.CState V) :
    (Cache.removeKey k s).metadata =
      if (alistLookup k s.metadata).isSome then alistErase k s.metadata
      else s.metadata := by
  cases hm : alistLookup k s.metadata with
  | none =>
    rw [removeKey_eq_none k s hm]
    simp [hm]
  | some m =>
    rw [removeKey_eq_some k s m hm]
    simp [hm]

theorem removeKey_frame {V : Type} (k : String) (s : Cache.CState V) :
    (Cache.removeKey k s).max_size = s.max_size ∧
    (Cache.removeKey k s).default_ttl = s.default_ttl ∧
    (Cache.removeKey k s).max_memory_bytes = s.max_memory_bytes ∧
    (Cache.removeKey k s).hits = s.hits ∧
    (Cache.removeKey k s).misses = s.misses ∧
    (Cache.removeKey k s).evictions = s.evictions := by
  cases hm : alistLookup k s.metadata with
  | none =>
    rw [removeKey_eq_none k s hm]
    exact ⟨rfl, rfl, rfl, rfl, rfl, rfl⟩
  | some m =>
    rw [removeKey_eq_some k s m hm]
    exact ⟨rfl, rfl, rfl, rfl, rfl, rfl⟩

theorem removeKey_shrinks {V : Type} (k : String) (s : Cache.CState V) :
    Cache.Shrinks (Cache.removeKey k s) s := by
  obtain ⟨h1, h2, h3, h4, h5, h6⟩ := removeKey_frame k s
  refine ⟨h1, h2, h3, h4, h5, h6, ?_⟩
  rw [removeKey_cache]
  by_cases hc : (alistLookup k s.cache).isSome
  · rw [if_pos hc]
    exact List.filter_sublist s.cache
  · rw [if_neg hc]

theorem shrinks_refl {V : Type} (s : Cache.CState V) : Cache.Shrinks s s :=
  ⟨rfl, rfl, rfl, rfl, rfl, rfl, List.Sublist.refl _⟩

theorem shrinks_trans {V : Type} {s3 s2 s1 : Cache.CState V}
    (h32 : Cache.Shrinks s3 s2) (h21 : Cache.Shrinks s2 s1) :
    Cache.Shrinks s3 s1 := by
  obtain ⟨a1, a2, a3, a4, a5, a6, a7⟩ := h32
  obtain ⟨b1, b2, b3, b4, b5, b6, b7⟩ := h21
  exact ⟨a1.trans b1, a2.trans b2, a3.trans b3, a4.trans b4, a5.trans b5,
    a6.trans b6, a7.trans b7⟩

theorem removeKeys_props {V : Type} (ks : List String) :
    ∀ (s : Cache.CState V), Cache.WF s →
    Cache.WF (Cache.removeKeys ks s) ∧ Cache.Shrinks (Cache.removeKeys ks s) s := by
  induction ks with
  | nil => exact fun s h => ⟨h, shrinks_refl s⟩
  | cons k ks ih =>
    intro s h
    have h1 := WF_removeKey k s h
    have h2 := ih (Cache.removeKey k s) h1
    exact ⟨h2.1, shrinks_trans h2.2 (removeKey_shrinks k s)⟩

theorem freeExpired_props {V : Type} (required : Nat) (ks : List String) :
    ∀ (freed : Nat) (s : Cache.CState V), Cache.WF s →
    Cache.WF (Cache.freeExpired required ks freed s).2.2 ∧
    Cache.Shrinks (Cache.freeExpired required ks freed s).2.2 s := by
  induction ks with
  | nil => exact fun freed s h => ⟨h, shrinks_refl s⟩
  | cons k ks ih =>
    intro freed s h
    have h1 := WF_removeKey k s h
    unfold Cache.freeExpired
    by_cases hreq : required ≤ freed + Cache.metaSize s k
    · rw [if_pos hreq]
      exact ⟨h1, removeKey_shrinks k s⟩
    · rw [if_neg hreq]
      have h2 := ih (freed + Cache.metaSize s k) (Cache.removeKey k s) h1
      exact ⟨h2.1, shrinks_trans h2.2 (removeKey_shrinks k s)⟩

theorem freeLRU_props {V : Type} (required : Nat) :
    ∀ (fuel freed : Nat) (s : Cache.CState V), Cache.WF s →
    Cache.WF (Cache.freeLRU required fuel freed s).2 ∧
    Cache.Shrinks (Cache.freeLRU required fuel freed s).2 s := by
  intro fuel
  induction fuel with
  | zero => exact fun freed s h => ⟨h, shrinks_refl s⟩
  | succ fuel ih =>
    intro freed s h
    unfold Cache.freeLRU
    by_cases hreq : freed < required
    · rw [if_pos hreq]
      cases hc : s.cache with
      | nil => exact ⟨h, shrinks_refl s⟩
      | cons kv rest =>
        obtain ⟨k, v⟩ := kv
        have h1 := WF_removeKey k s h
        have h2 := ih (freed + Cache.metaSize s k) (Cache.removeKey k s) h1
        exact ⟨h2.1, shrinks_trans h2.2 (removeKey_shrinks k s)⟩
    · rw [if_neg hreq]
      exact ⟨h, shrinks_refl s⟩

theorem freeMemory_props {V : Type} (t : Int) (required : Nat) (s : Cache.CState V)
    (h : Cache.WF s) :
    Cache.WF (Cache.freeMemory t required s).2 ∧
    Cache.Shrinks (Cache.freeMemory t required s).2 s := by
  unfold Cache.freeMemory
  have h1 := freeExpired_props required (Cache.expiredKeys t s) 0 s h
  by_cases he : (Cache.freeExpired required (Cache.expiredKeys t s) 0 s).1
  · rw [if_pos he]
    exact h1
  · rw [if_neg he]
    have h2 := freeLRU_props required
      (Cache.freeExpired required (Cache.expiredKeys t s) 0 s).2.2.cache.length
      (Cache.freeExpired required (Cache.expiredKeys t s) 0 s).2.1
      (Cache.freeExpired required (Cache.expiredKeys t s) 0 s).2.2 h1.1
    exact ⟨h2.1, shrinks_trans h2.2 h1.2⟩

theorem freeLRU_total {V : Type} (required : Nat) :
    ∀ (fuel freed : Nat) (s : Cache.CState V), s.cache.length ≤ fuel →
    required ≤ (Cache.freeLRU required fuel freed s).1 ∨
    (Cache.freeLRU required fuel freed s).2.cache = [] := by
  intro fuel
  induction fuel with
  | zero =>
    intro freed s hlen
    right
    unfold Cache.freeLRU
    exact List.length_eq_zero.mp (Nat.le_zero.mp hlen)
  | succ fuel ih =>
    intro freed s hlen
    unfold Cache.freeLRU
    by_cases hreq : freed < required
    · rw [if_pos hreq]
      cases hc : s.cache with
      | nil => right; exact hc
      | cons kv rest =>
        obtain ⟨k, v⟩ := kv
        refine ih (freed + Cache.metaSize s k) (Cache.removeKey k s) ?_
        rw [removeKey_cache, if_pos (by rw [hc, alistLookup, if_pos rfl]; rfl), hc,
          alistErase_cons_head]
        have h1 : (alistErase k rest).length ≤ rest.length :=
          List.length_filter_le _ rest
        have h2 : rest.length + 1 ≤ fuel + 1 := by
          rw [hc] at hlen
          simpa using hlen
        omega
    · rw [if_neg hreq]
      left
      omega

theorem freeMemory_false {V : Type} (t : Int) (required : Nat) (s : Cache.CState V)
    (hfail : (Cache.freeMemory t required s).1 = false) :
    (Cache.freeMemory t required s).2.cache = [] := by
  unfold Cache.freeMemory at hfail ⊢
  by_cases he : (Cache.freeExpired required (Cache.expiredKeys t s) 0 s).1
  · rw [if_pos he] at hfail
    cases hfail
  · rw [if_neg he] at hfail ⊢
    simp only [decide_eq_false_iff_not, not_le] at hfail
    rcases freeLRU_total required
      (Cache.freeExpired required (Cache.expiredKeys t s) 0 s).2.2.cache.length
      (Cache.freeExpired required (Cache.expiredKeys t s) 0 s).2.1
      (Cache.freeExpired required (Cache.expiredKeys t s) 0 s).2.2
      (Nat.le_refl _) with h | h
    · omega
    · exact h

theorem metadata_nil_of_cache_nil {V : Type} (s : Cache.CState V) (h : Cache.WF s)
    (hc : s.cache = []) : s.metadata = [] := by
  have hperm := h.2.2.1
  rw [hc] at hperm
  have : keysOf s.metadata = [] := List.Perm.nil_eq hperm |>.symm
  cases hmeta : s.metadata with
  | nil => rfl
  | cons kv rest =>
    rw [hmeta, keysOf_cons] at this
    cases this

/-! ## Cache lemmas: get, eviction and insertion -/

theorem lookup_meta_none_of_cache_none {V : Type} {s : Cache.CState V}
    (h : Cache.WF s) {k : String} (hc : alistLookup k s.cache = none) :
    alistLookup k s.metadata = none := by
  by_contra hm
  obtain ⟨m, hm'⟩ := Option.ne_none_iff_exists'.mp hm
  have h2 := (lookup_isSome_of_perm h.2.2.1 k).mpr (by rw [hm']; rfl)
  rw [hc] at h2
  cases h2

theorem cGet_eq_miss {V : Type} (t : Int) (k : String) (s : Cache.CState V)
    (hc : alistLookup k s.cache = none) :
    Cache.cGet t k s = (none, { s with misses := s.misses + 1 }) := by
  simp [Cache.cGet, hc]

theorem cGet_eq_expired {V : Type} (t : Int) (k : String) (s : Cache.CState V)
    (v : V) (m : Cache.Meta)
    (hc : alistLookup k s.cache = some v)
    (hm : alistLookup k s.metadata = some m) (hexp : m.expires_at < t) :
    Cache.cGet t k s =
      (none, { Cache.removeKey k s with
        misses := (Cache.removeKey k s).misses + 1 }) := by
  simp [Cache.cGet, hc, hm, hexp]

theorem cGet_eq_hit {V : Type} (t : Int) (k : String) (s : Cache.CState V)
    (v : V) (m : Cache.Meta)
    (hc : alistLookup k s.cache = some v)
    (hm : alistLookup k s.metadata = some m) (hexp : ¬ m.expires_at < t) :
    Cache.cGet t k s =
      (some v,
       { s with cache := alistErase k s.cache ++ [(k, v)],
                metadata := alistSet k
                  { m with last_accessed := t, access_count := m.access_count + 1 }
                  s.metadata,
                hits := s.hits + 1 }) := by
  simp [Cache.cGet, hc, hm, hexp]

theorem filter_ne_eq_filter_bne (k : String) (l : List String) :
    l.filter (fun x => x ≠ k) = l.filter (fun x => x != k) := by
  apply List.filter_congr
  intro x _
  by_cases h : x = k <;> simp [h]

theorem nodup_keys_erase_append {α : Type} (k : String) (v : α)
    (l : List (String × α)) (h : (keysOf l).Nodup) :
    (keysOf (alistErase k l ++ [(k, v)])).Nodup := by
  rw [keysOf_append, keysOf_erase]
  refine List.Nodup.append (h.filter _) ?_ ?_
  · simp [keysOf]
  · intro a ha hb
    simp [keysOf] at hb
    rw [List.mem_filter] at ha
    simp [hb] at ha

theorem perm_erase_append {α : Type} (k : String) (v : α) (l : List (String × α))
    (hnd : (keysOf l).Nodup) (hk : k ∈ keysOf l) :
    (keysOf (alistErase k l ++ [(k, v)])).Perm (keysOf l) := by
  rw [keysOf_append, keysOf_erase]
  have h1 : (keysOf l).filter (fun x => x ≠ k) = (keysOf l).erase k := by
    rw [filter_ne_eq_filter_bne]
    exact (hnd.erase_eq_filter k).symm
  rw [h1]
  show ((keysOf l).erase k ++ [k]).Perm (keysOf l)
  exact (List.perm_append_singleton k _).trans (List.perm_cons_erase hk).symm

theorem WF_cGet {V : Type} (t : Int) (k : String) (s : Cache.CState V)
    (h : Cache.WF s) : Cache.WF (Cache.cGet t k s).2 := by
  obtain ⟨hnc, hnm, hperm, hmem⟩ := h
  cases hc : alistLookup k s.cache with
  | none =>
    rw [cGet_eq_miss t k s hc]
    exact ⟨hnc, hnm, hperm, hmem⟩
  | some v =>
    obtain ⟨m, hm⟩ := lookup_meta_of_cache ⟨hnc, hnm, hperm, hmem⟩ hc
    by_cases hexp : m.expires_at < t
    · rw [cGet_eq_expired t k s v m hc hm hexp]
      exact WF_removeKey k s ⟨hnc, hnm, hperm, hmem⟩
    · rw [cGet_eq_hit t k s v m hc hm hexp]
      have hk : k ∈ keysOf s.cache := mem_keys_of_lookup hc
      refine ⟨?_, ?_, ?_, ?_⟩
      · show (keysOf (alistErase k s.cache ++ [(k, v)])).Nodup
        exact nodup_keys_erase_append k v s.cache hnc
      · show (keysOf (alistSet k _ s.metadata)).Nodup
        exact nodup_keys_set k _ s.metadata hnm
      · show (keysOf (alistErase k s.cache ++ [(k, v)])).Perm
          (keysOf (alistSet k _ s.metadata))
        rw [keysOf_set_of_mem k _ s.metadata (mem_keys_of_lookup hm)]
        exact (perm_erase_append k v s.cache hnc hk).trans hperm
      · show s.memory_usage = Cache.sumSizes (alistSet k _ s.metadata)
        rw [sumSizes_set_some k s.metadata _ m hnm hm]
        simp [hmem]

theorem WF_evictLRU {V : Type} (s : Cache.CState V) (h : Cache.WF s) :
    Cache.WF (Cache.evictLRU s) := by
  unfold Cache.evictLRU
  cases hc : s.cache with
  | nil => exact h
  | cons kv rest =>
    obtain ⟨k, v⟩ := kv
    exact WF_removeKey k s h

theorem evictLRU_cache_cons {V : Type} (k : String) (v : V)
    (rest : List (String × V)) (s : Cache.CState V)
    (hc : s.cache = (k, v) :: rest) (hnd : (keysOf s.cache).Nodup) :
    (Cache.evictLRU s).cache = rest := by
  unfold Cache.evictLRU
  rw [hc]
  show (Cache.removeKey k s).cache = rest
  rw [removeKey_cache, if_pos (by rw [hc, alistLookup, if_pos rfl]; rfl), hc,
    alistErase_cons_head]
  rw [hc, keysOf_cons, List.nodup_cons] at hnd
  exact alistErase_of_not_mem k rest hnd.1

theorem evictLRU_metadata_cons {V : Type} (k : String) (v : V)
    (rest : List (String × V)) (s : Cache.CState V)
    (hc : s.cache = (k, v) :: rest) :
    (Cache.evictLRU s).metadata =
      if (alistLookup k s.metadata).isSome then alistErase k s.metadata
      else s.metadata := by
  unfold Cache.evictLRU
  rw [hc]
  show (Cache.removeKey k s).metadata = _
  exact removeKey_metadata k s

theorem evictLRU_frame {V : Type} (s : Cache.CState V) :
    (Cache.evictLRU s).max_size = s.max_size ∧
    (Cache.evictLRU s).hits = s.hits ∧
    (Cache.evictLRU s).misses = s.misses := by
  unfold Cache.evictLRU
  cases hc : s.cache with
  | nil => exact ⟨rfl, rfl, rfl⟩
  | cons kv rest =>
    obtain ⟨k, v⟩ := kv
    obtain ⟨h1, _, _, h4, h5, _⟩ := removeKey_frame k s
    exact ⟨h1, h4, h5⟩

theorem alistSet_length_of_mem {α : Type} (k : String) (v : α)
    (l : List (String × α)) (h : k ∈ keysOf l) :
    (alistSet k v l).length = l.length := by
  have h2 := congrArg List.length (keysOf_set_of_mem k v l h)
  simpa [keysOf] using h2

theorem metaSize_eq {V : Type} (s : Cache.CState V) (k : String) (m : Cache.Meta)
    (hm : alistLookup k s.metadata = some m) : Cache.metaSize s k = m.size := by
  simp [Cache.metaSize, hm]

theorem evict_if_props {V : Type} (s3 : Cache.CState V) (hwf3 : Cache.WF s3) :
    Cache.WF (if s3.max_size < s3.cache.length then Cache.evictLRU s3 else s3) ∧
    (if s3.max_size < s3.cache.length then Cache.evictLRU s3 else s3).max_size
      = s3.max_size ∧
    (if s3.max_size < s3.cache.length then Cache.evictLRU s3 else s3).hits = s3.hits ∧
    (if s3.max_size < s3.cache.length then Cache.evictLRU s3 else s3).misses
      = s3.misses := by
  by_cases hov : s3.max_size < s3.cache.length
  · rw [if_pos hov]
    obtain ⟨e1, e2, e3⟩ := evictLRU_frame s3
    exact ⟨WF_evictLRU s3 hwf3, e1, e2, e3⟩
  · rw [if_neg hov]
    exact ⟨hwf3, rfl, rfl, rfl⟩

theorem evict_if_length {V : Type} (s3 : Cache.CState V)
    (hnd : (keysOf s3.cache).Nodup)
    (hle : s3.cache.length ≤ s3.max_size + 1) :
    (if s3.max_size < s3.cache.length then Cache.evictLRU s3 else s3).cache.length
      ≤ s3.max_size := by
  by_cases hov : s3.max_size < s3.cache.length
  · rw [if_pos hov]
    cases hc : s3.cache with
    | nil =>
      rw [hc] at hov
      simp at hov
    | cons kv rest =>
      obtain ⟨k0, v0⟩ := kv
      rw [evictLRU_cache_cons k0 v0 rest s3 hc hnd]
      rw [hc] at hle
      simp at hle
      omega
  · rw [if_neg hov]
    omega

theorem evict_if_lookup {V : Type} (s3 : Cache.CState V) (k : String) (v : V)
    (m : Cache.Meta) (hnd : (keysOf s3.cache).Nodup)
    (hlc : alistLookup k s3.cache = some v)
    (hlm : alistLookup k s3.metadata = some m)
    (hne : s3.max_size < s3.cache.length →
      ∀ kv, s3.cache.head? = some kv → kv.1 ≠ k) :
    alistLookup k
      (if s3.max_size < s3.cache.length then Cache.evictLRU s3 else s3).cache
        = some v ∧
    alistLookup k
      (if s3.max_size < s3.cache.length then Cache.evictLRU s3 else s3).metadata
        = some m := by
  by_cases hov : s3.max_size < s3.cache.length
  · rw [if_pos hov]
    cases hc : s3.cache with
    | nil =>
      rw [hc] at hlc
      cases hlc
    | cons kv rest =>
      obtain ⟨k0, v0⟩ := kv
      have hk0 : k0 ≠ k := hne hov (k0, v0) (by rw [hc]; rfl)
      constructor
      · rw [evictLRU_cache_cons k0 v0 rest s3 hc hnd]
        rw [hc, alistLookup, if_neg hk0] at hlc
        exact hlc
      · rw [evictLRU_metadata_cons k0 v0 rest s3 hc]
        by_cases hm0 : (alistLookup k0 s3.metadata).isSome
        · rw [if_pos hm0, alistLookup_erase_other k0 k s3.metadata
            (fun he => hk0 he.symm)]
          exact hlm
        · rw [if_neg hm0]
          exact hlm
  · rw [if_neg hov]
    exact ⟨hlc, hlm⟩

theorem setInsert_cases {V : Type} (t : Int) (k : String) (v : V) (vs : Nat)
    (ttl : Int) (s1 : Cache.CState V) (h : Cache.WF s1) :
    Cache.WF (Cache.setInsert t k v vs ttl s1) ∧
    (Cache.setInsert t k v vs ttl s1).max_size = s1.max_size ∧
    (Cache.setInsert t k v vs ttl s1).hits = s1.hits ∧
    (Cache.setInsert t k v vs ttl s1).misses = s1.misses ∧
    (s1.cache.length ≤ s1.max_size →
      (Cache.setInsert t k v vs ttl s1).cache.length ≤ s1.max_size) ∧
    (s1.cache.length ≤ s1.max_size → 1 ≤ s1.max_size →
      alistLookup k (Cache.setInsert t k v vs ttl s1).cache = some v ∧
      alistLookup k (Cache.setInsert t k v vs ttl s1).metadata
        = some ⟨t, t + ttl, t, 1, vs, ttl⟩) := by
  obtain ⟨hnc, hnm, hperm, hmem⟩ := h
  by_cases hk : (alistLookup k s1.cache).isSome = true
  · -- the key is replaced in place
    obtain ⟨vOld, hvOld⟩ := Option.isSome_iff_exists.mp hk
    obtain ⟨mOld, hmOld⟩ := lookup_meta_of_cache ⟨hnc, hnm, hperm, hmem⟩ hvOld
    have hmemk : k ∈ keysOf s1.cache := mem_keys_of_lookup hvOld
    have hmemkM : k ∈ keysOf s1.metadata := mem_keys_of_lookup hmOld
    have hkeysC := keysOf_set_of_mem k v s1.cache hmemk
    have hkeysM := keysOf_set_of_mem k (⟨t, t + ttl, t, 1, vs, ttl⟩ : Cache.Meta)
      s1.metadata hmemkM
    have hlen3 : (alistSet k v s1.cache).length = s1.cache.length :=
      alistSet_length_of_mem k v s1.cache hmemk
    have hms : Cache.metaSize s1 k = mOld.size := metaSize_eq s1 k mOld hmOld
    have hwf3 : Cache.WF { s1 with cache := alistSet k v s1.cache, metadata := alistSet k ⟨t, t + ttl, t, 1, vs, ttl⟩ s1.metadata, memory_usage := s1.memory_usage - (Cache.metaSize s1 k : Int) + (vs : Int) } := by
      refine ⟨?_, ?_, ?_, ?_⟩
      · show (keysOf (alistSet k v s1.cache)).Nodup
        exact nodup_keys_set k v s1.cache hnc
      · show (keysOf (alistSet k (⟨t, t + ttl, t, 1, vs, ttl⟩ : Cache.Meta) s1.metadata)).Nodup
        exact nodup_keys_set k _ s1.metadata hnm
      · show (keysOf (alistSet k v s1.cache)).Perm
          (keysOf (alistSet k (⟨t, t + ttl, t, 1, vs, ttl⟩ : Cache.Meta) s1.metadata))
        rw [hkeysC, hkeysM]
        exact hperm
      · show s1.memory_usage - (Cache.metaSize s1 k : Int) + (vs : Int)
          = Cache.sumSizes (alistSet k (⟨t, t + ttl, t, 1, vs, ttl⟩ : Cache.Meta) s1.metadata)
        rw [sumSizes_set_some k s1.metadata _ mOld hnm hmOld, hms]
        dsimp only
        omega
    unfold Cache.setInsert
    rw [if_pos hk]
    obtain ⟨w1, w2, w3, w4⟩ := evict_if_props _ hwf3
    refine ⟨w1, w2, w3, w4, ?_, ?_⟩
    · intro hcount
      exact evict_if_length _ hwf3.1
        (show (alistSet k v s1.cache).length ≤ s1.max_size + 1 by omega)
    · intro hcount hmax
      refine evict_if_lookup _ k v ⟨t, t + ttl, t, 1, vs, ttl⟩ hwf3.1
        (alistLookup_set_self k v s1.cache) (alistLookup_set_self k _ s1.metadata) ?_
      intro hov kv _
      exfalso
      have hov' : s1.max_size < (alistSet k v s1.cache).length := hov
      omega
  · -- the key is new and appended at the end
    have hkNone : alistLookup k s1.cache = none := by
      cases hl : alistLookup k s1.cache with
      | none => rfl
      | some w => rw [hl] at hk; cases hk rfl
    have hmNone : alistLookup k s1.metadata = none :=
      lookup_meta_none_of_cache_none ⟨hnc, hnm, hperm, hmem⟩ hkNone
    have hnotmem : k ∉ keysOf s1.cache := (alistLookup_eq_none k s1.cache).mp hkNone
    have hnotmemM : k ∉ keysOf s1.metadata := (alistLookup_eq_none k s1.metadata).mp hmNone
    have hCset : alistSet k v s1.cache = s1.cache ++ [(k, v)] :=
      alistSet_of_not_mem k v s1.cache hnotmem
    have hMset : alistSet k (⟨t, t + ttl, t, 1, vs, ttl⟩ : Cache.Meta) s1.metadata
        = s1.metadata ++ [(k, ⟨t, t + ttl, t, 1, vs, ttl⟩)] :=
      alistSet_of_not_mem k _ s1.metadata hnotmemM
    have hlen3 : (alistSet k v s1.cache).length = s1.cache.length + 1 := by
      rw [hCset]
      simp
    have hwf3 : Cache.WF { s1 with cache := alistSet k v s1.cache, metadata := alistSet k ⟨t, t + ttl, t, 1, vs, ttl⟩ s1.metadata, memory_usage := s1.memory_usage + (vs : Int) } := by
      refine ⟨?_, ?_, ?_, ?_⟩
      · show (keysOf (alistSet k v s1.cache)).Nodup
        exact nodup_keys_set k v s1.cache hnc
      · show (keysOf (alistSet k (⟨t, t + ttl, t, 1, vs, ttl⟩ : Cache.Meta) s1.metadata)).Nodup
        exact nodup_keys_set k _ s1.metadata hnm
      · show (keysOf (alistSet k v s1.cache)).Perm
          (keysOf (alistSet k (⟨t, t + ttl, t, 1, vs, ttl⟩ : Cache.Meta) s1.metadata))
        rw [hCset, hMset, keysOf_append, keysOf_append]
        exact hperm.append_right _
      · show s1.memory_usage + (vs : Int)
          = Cache.sumSizes (alistSet k (⟨t, t + ttl, t, 1, vs, ttl⟩ : Cache.Meta) s1.metadata)
        rw [sumSizes_set_none k s1.metadata _ hmNone]
        dsimp only
        omega
    unfold Cache.setInsert
    rw [if_neg hk]
    obtain ⟨w1, w2, w3, w4⟩ := evict_if_props _ hwf3
    refine ⟨w1, w2, w3, w4, ?_, ?_⟩
    · intro hcount
      exact evict_if_length _ hwf3.1
        (show (alistSet k v s1.cache).length ≤ s1.max_size + 1 by omega)
    · intro hcount hmax
      refine evict_if_lookup _ k v ⟨t, t + ttl, t, 1, vs, ttl⟩ hwf3.1
        (alistLookup_set_self k v s1.cache) (alistLookup_set_self k _ s1.metadata) ?_
      intro hov kv hkv
      have hov' : s1.max_size < (alistSet k v s1.cache).length := hov
      have hkv' : (alistSet k v s1.cache).head? = some kv := hkv
      rw [hlen3] at hov'
      cases hs1c : s1.cache with
      | nil =>
        exfalso
        rw [hs1c] at hov'
        simp at hov'
        omega
      | cons kv0 rest =>
        rw [hCset, hs1c] at hkv'
        simp at hkv'
        intro he
        apply hnotmem
        rw [hs1c, keysOf_cons]
        rw [← hkv', he] at *
        simp

theorem cSet_eq_no_free {V : Type} (esz : V → Nat) (t : Int) (k : String) (v : V)
    (ttlOpt : Option Int) (s : Cache.CState V)
    (hmc : ¬ s.max_memory_bytes < s.memory_usage + (esz v : Int)) :
    Cache.cSet esz t k v ttlOpt s
      = (true, Cache.setInsert t k v (esz v) (ttlOpt.getD s.default_ttl) s) := by
  simp [Cache.cSet, hmc]

theorem cSet_eq_free_ok {V : Type} (esz : V → Nat) (t : Int) (k : String) (v : V)
    (ttlOpt : Option Int) (s : Cache.CState V)
    (hmc : s.max_memory_bytes < s.memory_usage + (esz v : Int))
    (hok : (Cache.freeMemory t (esz v) s).1 = true) :
    Cache.cSet esz t k v ttlOpt s
      = (true, Cache.setInsert t k v (esz v) (ttlOpt.getD s.default_ttl)
          (Cache.freeMemory t (esz v) s).2) := by
  simp [Cache.cSet, hmc, hok]

theorem cSet_eq_free_fail {V : Type} (esz : V → Nat) (t : Int) (k : String) (v : V)
    (ttlOpt : Option Int) (s : Cache.CState V)
    (hmc : s.max_memory_bytes < s.memory_usage + (esz v : Int))
    (hfail : (Cache.freeMemory t (esz v) s).1 = false) :
    Cache.cSet esz t k v ttlOpt s = (false, (Cache.freeMemory t (esz v) s).2) := by
  simp [Cache.cSet, hmc, hfail]

theorem cSet_props {V : Type} (esz : V → Nat) (t : Int) (k : String) (v : V)
    (ttlOpt : Option Int) (s : Cache.CState V) (h : Cache.WF s) :
    Cache.WF (Cache.cSet esz t k v ttlOpt s).2 ∧
    (Cache.cSet esz t k v ttlOpt s).2.max_size = s.max_size ∧
    (Cache.cSet esz t k v ttlOpt s).2.hits = s.hits ∧
    (Cache.cSet esz t k v ttlOpt s).2.misses = s.misses ∧
    (s.cache.length ≤ s.max_size →
      (Cache.cSet esz t k v ttlOpt s).2.cache.length ≤ s.max_size) ∧
    ((Cache.cSet esz t k v ttlOpt s).1 = true → s.cache.length ≤ s.max_size →
      1 ≤ s.max_size →
      alistLookup k (Cache.cSet esz t k v ttlOpt s).2.cache = some v ∧
      alistLookup k (Cache.cSet esz t k v ttlOpt s).2.metadata
        = some ⟨t, t + ttlOpt.getD s.default_ttl, t, 1, esz v,
            ttlOpt.getD s.default_ttl⟩) := by
  by_cases hmc : s.max_memory_bytes < s.memory_usage + (esz v : Int)
  · cases hok : (Cache.freeMemory t (esz v) s).1 with
    | true =>
      rw [cSet_eq_free_ok esz t k v ttlOpt s hmc hok]
      obtain ⟨hwf1, hshr⟩ := freeMemory_props t (esz v) s h
      obtain ⟨f1, f2, f3, f4, f5, f6, f7⟩ := hshr
      obtain ⟨i1, i2, i3, i4, i5, i6⟩ :=
        setInsert_cases t k v (esz v) (ttlOpt.getD s.default_ttl)
          (Cache.freeMemory t (esz v) s).2 hwf1
      have hlen1 : (Cache.freeMemory t (esz v) s).2.cache.length ≤ s.cache.length :=
        f7.length_le
      refine ⟨i1, i2.trans f1, i3.trans f4, i4.trans f5, ?_, ?_⟩
      · intro hcount
        have := i5 (by rw [f1]; omega)
        rw [f1] at this
        exact this
      · intro _ hcount hmax
        exact i6 (by rw [f1]; omega) (by rw [f1]; omega)
    | false =>
      rw [cSet_eq_free_fail esz t k v ttlOpt s hmc hok]
      obtain ⟨hwf1, hshr⟩ := freeMemory_props t (esz v) s h
      obtain ⟨f1, f2, f3, f4, f5, f6, f7⟩ := hshr
      refine ⟨hwf1, f1, f4, f5, ?_, ?_⟩
      · intro hcount
        have := f7.length_le
        show (Cache.freeMemory t (esz v) s).2.cache.length ≤ s.max_size
        omega
      · intro hfalse
        cases hfalse
  · rw [cSet_eq_no_free esz t k v ttlOpt s hmc]
    obtain ⟨i1, i2, i3, i4, i5, i6⟩ :=
      setInsert_cases t k v (esz v) (ttlOpt.getD s.default_ttl) s h
    exact ⟨i1, i2, i3, i4, i5, fun _ => i6⟩

theorem WF_cDelete {V : Type} (k : String) (s : Cache.CState V) (h : Cache.WF s) :
    Cache.WF (Cache.cDelete k s).2 := by
  unfold Cache.cDelete
  by_cases hc : (alistLookup k s.cache).isSome = true
  · rw [if_pos hc]
    exact WF_removeKey k s h
  · rw [if_neg hc]
    exact h

theorem WF_cClear {V : Type} (s : Cache.CState V) : Cache.WF (Cache.cClear s) := by
  refine ⟨?_, ?_, ?_, ?_⟩ <;> simp [Cache.cClear, keysOf, Cache.sumSizes]

theorem WF_mkCache (V : Type) (ms : Nat) (dt mm : Int) :
    Cache.WF (Cache.mkCache V ms dt mm) := by
  refine ⟨?_, ?_, ?_, ?_⟩ <;> simp [Cache.mkCache, keysOf, Cache.sumSizes]

/-! ## Claim C3: a failed set is not side-effect free -/

/-- C3 (counterexample): a `set` that fails for lack of memory does NOT
leave the store as it was.  A 10-byte store holds `k1` (6 bytes); setting
`k2` (8 bytes) triggers reclamation, which evicts `k1` and still cannot
free enough, so `set` returns failure — but the store has been emptied:
`k1` is gone, refuting "no side effect". -/
theorem c3_no_side_effect_counterexample :
    (Cache.cSet String.length 0 "k1" "aaaaaa" (some 50)
        (Cache.mkCache String 10 3600 10)).2.cache = [("k1", "aaaaaa")] ∧
    (Cache.cSet String.length 1 "k2" "bbbbbbbb" (some 50)
        (Cache.cSet String.length 0 "k1" "aaaaaa" (some 50)
          (Cache.mkCache String 10 3600 10)).2).1 = false ∧
    (Cache.cSet String.length 1 "k2" "bbbbbbbb" (some 50)
        (Cache.cSet String.length 0 "k1" "aaaaaa" (some 50)
          (Cache.mkCache String 10 3600 10)).2).2
      ≠ (Cache.cSet String.length 0 "k1" "aaaaaa" (some 50)
          (Cache.mkCache String 10 3600 10)).2 ∧
    alistLookup "k1"
      (Cache.cSet String.length 1 "k2" "bbbbbbbb" (some 50)
        (Cache.cSet String.length 0 "k1" "aaaaaa" (some 50)
          (Cache.mkCache String 10 3600 10)).2).2.cache = none := by
  decide

/-- C3 (amended): if, after removing already-expired entries and then
evicting least-recently-used entries, there is still insufficient memory
for the new value, `set` returns failure and does not insert the value —
but the reclamation's removals persist: failure is only reached once the
store has been completely emptied (entries and metadata gone, memory
accounting at zero).  The hit/miss/eviction counters are untouched. -/
theorem c3_failed_set_empties_store {V : Type} (esz : V → Nat) (t : Int)
    (k : String) (v : V) (ttlOpt : Option Int) (s : Cache.CState V)
    (h : Cache.WF s)
    (hfail : (Cache.cSet esz t k v ttlOpt s).1 = false) :
    (Cache.cSet esz t k v ttlOpt s).2.cache = [] ∧
    (Cache.cSet esz t k v ttlOpt s).2.metadata = [] ∧
    (Cache.cSet esz t k v ttlOpt s).2.memory_usage = 0 ∧
    (Cache.cSet esz t k v ttlOpt s).2.hits = s.hits ∧
    (Cache.cSet esz t k v ttlOpt s).2.misses = s.misses ∧
    (Cache.cSet esz t k v ttlOpt s).2.evictions = s.evictions ∧
    alistLookup k (Cache.cSet esz t k v ttlOpt s).2.cache = none := by
  by_cases hmc : s.max_memory_bytes < s.memory_usage + (esz v : Int)
  · cases hok : (Cache.freeMemory t (esz v) s).1 with
    | true =>
      rw [cSet_eq_free_ok esz t k v ttlOpt s hmc hok] at hfail
      cases hfail
    | false =>
      rw [cSet_eq_free_fail esz t k v ttlOpt s hmc hok] at hfail ⊢
      have hempty := freeMemory_false t (esz v) s hok
      have hwf1 := (freeMemory_props t (esz v) s h).1
      obtain ⟨f1, f2, f3, f4, f5, f6, f7⟩ := (freeMemory_props t (esz v) s h).2
      have hmeta := metadata_nil_of_cache_nil _ hwf1 hempty
      refine ⟨hempty, hmeta, ?_, f4, f5, f6, ?_⟩
      · show (Cache.freeMemory t (esz v) s).2.memory_usage = 0
        rw [hwf1.2.2.2, hmeta]
        rfl
      · show alistLookup k (Cache.freeMemory t (esz v) s).2.cache = none
        rw [hempty]
        rfl
  · rw [cSet_eq_no_free esz t k v ttlOpt s hmc] at hfail
    cases hfail

/-- Witness for `c3_failed_set_empties_store` at the counterexample's
failing call. -/
theorem c3_failed_set_empties_store_witness :
    Cache.WF (Cache.cSet String.length 0 "k1" "aaaaaa" (some 50)
        (Cache.mkCache String 10 3600 10)).2 ∧
    (Cache.cSet String.length 1 "k2" "bbbbbbbb" (some 50)
        (Cache.cSet String.length 0 "k1" "aaaaaa" (some 50)
          (Cache.mkCache String 10 3600 10)).2).1 = false ∧
    (Cache.cSet String.length 1 "k2" "bbbbbbbb" (some 50)
        (Cache.cSet String.length 0 "k1" "aaaaaa" (some 50)
          (Cache.mkCache String 10 3600 10)).2).2.cache = [] ∧
    (Cache.cSet String.length 1 "k2" "bbbbbbbb" (some 50)
        (Cache.cSet String.length 0 "k1" "aaaaaa" (some 50)
          (Cache.mkCache String 10 3600 10)).2).2.memory_usage = 0 := by
  have h := c3_failed_set_empties_store String.length 1 "k2" "bbbbbbbb" (some 50)
    (Cache.cSet String.length 0 "k1" "aaaaaa" (some 50)
      (Cache.mkCache String 10 3600 10)).2 (by decide) (by decide)
  exact ⟨by decide, by decide, h.1, h.2.2.1⟩

/-! ## Claim C5: memory accounting and entry-count invariants -/

/-- C5: well-formedness — `_cache` and `_metadata` are duplicate-free, hold
the same key set, and the `memory_usage` counter equals the sum of the
recorded `sizeBytes` of all live (non-removed) entries — holds for a fresh
store and is preserved by every operation (`get`, `set`, `delete`,
`clear`, invalidate-by-pattern, expired-entry cleanup); and after any
`set` completes on a state within the entry-count bound, the number of
entries still does not exceed the configured maximum. -/
theorem c5_accounting_invariants (V : Type) (esz : V → Nat) (t : Int)
    (k : String) (v : V) (ttlOpt : Option Int) (pred : String → Bool)
    (ms : Nat) (dt mm : Int) (s : Cache.CState V) (h : Cache.WF s) :
    Cache.WF (Cache.mkCache V ms dt mm) ∧
    Cache.WF (Cache.cGet t k s).2 ∧
    Cache.WF (Cache.cSet esz t k v ttlOpt s).2 ∧
    Cache.WF (Cache.cDelete k s).2 ∧
    Cache.WF (Cache.cClear s) ∧
    Cache.WF (Cache.invalidatePattern pred s).2 ∧
    Cache.WF (Cache.cleanupExpired t s).2 ∧
    (s.cache.length ≤ s.max_size →
      (Cache.cSet esz t k v ttlOpt s).2.cache.length
        ≤ (Cache.cSet esz t k v ttlOpt s).2.max_size) := by
  obtain ⟨p1, p2, p3, p4, p5, p6⟩ := cSet_props esz t k v ttlOpt s h
  refine ⟨WF_mkCache V ms dt mm, WF_cGet t k s h, p1, WF_cDelete k s h,
    WF_cClear s, (removeKeys_props _ s h).1, (removeKeys_props _ s h).1, ?_⟩
  intro hcount
  rw [p2]
  exact p5 hcount

/-- Witness for `c5_accounting_invariants` at a concrete two-entry store. -/
theorem c5_accounting_invariants_witness :
    Cache.WF (Cache.cSet String.length 1 "b" "yy" (some 5)
        (Cache.cSet String.length 0 "a" "x" (some 5)
          (Cache.mkCache String 2 100 50)).2).2 ∧
    Cache.WF (Cache.cSet String.length 2 "c" "zzz" (some 5)
        (Cache.cSet String.length 1 "b" "yy" (some 5)
          (Cache.cSet String.length 0 "a" "x" (some 5)
            (Cache.mkCache String 2 100 50)).2).2).2 ∧
    (Cache.cSet String.length 2 "c" "zzz" (some 5)
        (Cache.cSet String.length 1 "b" "yy" (some 5)
          (Cache.cSet String.length 0 "a" "x" (some 5)
            (Cache.mkCache String 2 100 50)).2).2).2.cache.length
      ≤ (Cache.cSet String.length 2 "c" "zzz" (some 5)
          (Cache.cSet String.length 1 "b" "yy" (some 5)
            (Cache.cSet String.length 0 "a" "x" (some 5)
              (Cache.mkCache String 2 100 50)).2).2).2.max_size := by
  have h := c5_accounting_invariants String String.length 2 "c" "zzz" (some 5)
    (fun _ => false) 2 100 50
    (Cache.cSet String.length 1 "b" "yy" (some 5)
      (Cache.cSet String.length 0 "a" "x" (some 5)
        (Cache.mkCache String 2 100 50)).2).2 (by decide)
  exact ⟨by decide, h.2.2.1, h.2.2.2.2.2.2.2 (by decide)⟩

/-! ## Claim C6: the reported hit rate is a rounded percentage -/

/-- C6 (counterexample): the value `stats()` reports is not
`hits/(hits+misses)`.  After one miss, one successful `set` and one hit,
the counters are `hits = 1`, `misses = 1`; `hits/(hits+misses) = 1/2`,
but the reported `hit_rate_percent` is `50`. -/
theorem c6_hit_rate_counterexample :
    (Cache.cGet 0 "a"
        (Cache.cSet String.length 0 "a" "x" (some 10)
          (Cache.cGet 0 "a" (Cache.mkCache String 5 3600 100)).2).2).2.hits = 1 ∧
    (Cache.cGet 0 "a"
        (Cache.cSet String.length 0 "a" "x" (some 10)
          (Cache.cGet 0 "a" (Cache.mkCache String 5 3600 100)).2).2).2.misses = 1 ∧
    (Cache.getStats 0
        (Cache.cGet 0 "a"
          (Cache.cSet String.length 0 "a" "x" (some 10)
            (Cache.cGet 0 "a" (Cache.mkCache String 5 3600 100)).2).2).2).hit_rate_percent
      = 50 ∧
    ((1 : ℚ) / ((1 : ℚ) + (1 : ℚ)) ≠ 50) := by
  refine ⟨by decide, by decide, ?_, by norm_num⟩
  have h1 : (Cache.cGet 0 "a"
      (Cache.cSet String.length 0 "a" "x" (some 10)
        (Cache.cGet 0 "a" (Cache.mkCache String 5 3600 100)).2).2).2.hits = 1 := by decide
  have h2 : (Cache.cGet 0 "a"
      (Cache.cSet String.length 0 "a" "x" (some 10)
        (Cache.cGet 0 "a" (Cache.mkCache String 5 3600 100)).2).2).2.misses = 1 := by decide
  simp only [Cache.getStats, h1, h2]
  norm_num [Cache.round2, Cache.pyRound]

/-- C6 (amended): the hit rate reported by `stats()` is the percentage
`100 · hits/(hits+misses)`, rounded to two decimal places (half to even),
and `0` when no get requests have been made yet (`hits + misses = 0`). -/
theorem c6_hit_rate_formula {V : Type} (t : Int) (s : Cache.CState V) :
    (Cache.getStats t s).hit_rate_percent =
      (if s.hits + s.misses = 0 then 0
       else Cache.round2 (((s.hits : ℚ) / (((s.hits : ℚ) + (s.misses : ℚ)))) * 100)) := by
  simp only [Cache.getStats]
  by_cases h : s.hits + s.misses = 0
  · rw [if_pos h]
    have h2 : ¬ 0 < s.hits + s.misses := by omega
    rw [if_neg h2]
    norm_num [Cache.round2, Cache.pyRound]
  · rw [if_neg h]
    have h2 : 0 < s.hits + s.misses := Nat.pos_of_ne_zero h
    rw [if_pos h2]
    have h3 : ((s.hits + s.misses : Nat) : ℚ) = (s.hits : ℚ) + (s.misses : ℚ) := by
      push_cast
      rfl
    rw [h3]

/-! ## Claim C7: LRU eviction order and access promotion -/

theorem evict_if_cache_of_lt {V : Type} (s3 : Cache.CState V) (k0 : String) (v0 : V)
    (rest : List (String × V)) (hnd : (keysOf s3.cache).Nodup)
    (hov : s3.max_size < s3.cache.length) (hc : s3.cache = (k0, v0) :: rest) :
    (if s3.max_size < s3.cache.length then Cache.evictLRU s3 else s3).cache = rest := by
  rw [if_pos hov]
  exact evictLRU_cache_cons k0 v0 rest s3 hc hnd

theorem setInsert_evicts_head {V : Type} (t : Int) (k : String) (v : V) (vs : Nat)
    (ttl : Int) (s1 : Cache.CState V) (hnd : (keysOf s1.cache).Nodup)
    (hknone : alistLookup k s1.cache = none)
    (hfull : s1.cache.length = s1.max_size) (hpos : 0 < s1.max_size) :
    (Cache.setInsert t k v vs ttl s1).cache = s1.cache.tail ++ [(k, v)] := by
  obtain ⟨kv0, rest, hsc⟩ : ∃ kv0 rest, s1.cache = kv0 :: rest := by
    cases hc2 : s1.cache with
    | nil =>
      rw [hc2] at hfull
      simp at hfull
      omega
    | cons a b => exact ⟨a, b, rfl⟩
  obtain ⟨k0, v0⟩ := kv0
  have hkB : ¬ (alistLookup k s1.cache).isSome = true := by rw [hknone]; simp
  have hnotmem : k ∉ keysOf s1.cache := (alistLookup_eq_none k s1.cache).mp hknone
  have hCset := alistSet_of_not_mem k v s1.cache hnotmem
  have hnd3 : (keysOf (alistSet k v s1.cache)).Nodup := nodup_keys_set k v s1.cache hnd
  have hshape : alistSet k v s1.cache = (k0, v0) :: (rest ++ [(k, v)]) := by
    rw [hCset, hsc]
    rfl
  have hov : s1.max_size < (alistSet k v s1.cache).length := by
    rw [hshape]
    rw [hsc] at hfull
    simp at hfull ⊢
    omega
  rw [hsc, List.tail_cons]
  unfold Cache.setInsert
  rw [if_neg hkB]
  exact evict_if_cache_of_lt _ k0 v0 (rest ++ [(k, v)]) hnd3 hov hshape

/-- C7: for a well-formed cache at its maximum entry count (and a positive
bound), setting a new key succeeds with no reclamation needed and evicts
exactly the entry at the front of the ordering — the least-recently
accessed key, ties broken by insertion order — leaving the remaining
entries in order with the new key at the end; and a live `get` re-inserts
the accessed key at the end of the ordering, which is what keeps the front
entry least-recently-used. -/
theorem c7_lru_eviction_order {V : Type} (esz : V → Nat) (t : Int) (k kg : String)
    (v w : V) (ttlOpt : Option Int) (m : Cache.Meta) (s : Cache.CState V)
    (h : Cache.WF s) :
    (s.cache.length = s.max_size → 0 < s.max_size →
      alistLookup k s.cache = none →
      ¬ s.max_memory_bytes < s.memory_usage + (esz v : Int) →
      (Cache.cSet esz t k v ttlOpt s).1 = true ∧
      (Cache.cSet esz t k v ttlOpt s).2.cache = s.cache.tail ++ [(k, v)]) ∧
    (alistLookup kg s.cache = some w →
      alistLookup kg s.metadata = some m →
      ¬ m.expires_at < t →
      (Cache.cGet t kg s).2.cache = alistErase kg s.cache ++ [(kg, w)]) := by
  constructor
  · intro hfull hpos hknone hmc
    rw [cSet_eq_no_free esz t k v ttlOpt s hmc]
    exact ⟨rfl, setInsert_evicts_head t k v (esz v) (ttlOpt.getD s.default_ttl) s
      h.1 hknone hfull hpos⟩
  · intro hgc hgm hexp
    rw [cGet_eq_hit t kg s w m hgc hgm hexp]

/-- Witness for `c7_lru_eviction_order`: a capacity-3 store filled with
`A`, `x`, `y`; `get A` promotes `A` to the end, the subsequent `set B`
evicts `x` (the least-recently-used key), a further `set C` evicts `y`,
and `A` survives. -/
theorem c7_lru_eviction_order_witness :
    (Cache.cGet 3 "A"
        (Cache.cSet String.length 2 "y" "vy" (some 100)
          (Cache.cSet String.length 1 "x" "vx" (some 100)
            (Cache.cSet String.length 0 "A" "va" (some 100)
              (Cache.mkCache String 3 3600 1000)).2).2).2).2.cache
      = [("x", "vx"), ("y", "vy"), ("A", "va")] ∧
    (Cache.cSet String.length 4 "B" "vb" (some 100)
        (Cache.cGet 3 "A"
          (Cache.cSet String.length 2 "y" "vy" (some 100)
            (Cache.cSet String.length 1 "x" "vx" (some 100)
              (Cache.cSet String.length 0 "A" "va" (some 100)
                (Cache.mkCache String 3 3600 1000)).2).2).2).2).1 = true ∧
    (Cache.cSet String.length 4 "B" "vb" (some 100)
        (Cache.cGet 3 "A"
          (Cache.cSet String.length 2 "y" "vy" (some 100)
            (Cache.cSet String.length 1 "x" "vx" (some 100)
              (Cache.cSet String.length 0 "A" "va" (some 100)
                (Cache.mkCache String 3 3600 1000)).2).2).2).2).2.cache
      = [("y", "vy"), ("A", "va"), ("B", "vb")] ∧
    (Cache.cSet String.length 5 "C" "vc" (some 100)
        (Cache.cSet String.length 4 "B" "vb" (some 100)
          (Cache.cGet 3 "A"
            (Cache.cSet String.length 2 "y" "vy" (some 100)
              (Cache.cSet String.length 1 "x" "vx" (some 100)
                (Cache.cSet String.length 0 "A" "va" (some 100)
                  (Cache.mkCache String 3 3600 1000)).2).2).2).2).2).2.cache
      = [("A", "va"), ("B", "vb"), ("C", "vc")] := by
  have hget := (c7_lru_eviction_order String.length 3 "B" "A" "vb" "va" (some 100)
    ⟨0, 100, 0, 1, 2, 100⟩
    (Cache.cSet String.length 2 "y" "vy" (some 100)
      (Cache.cSet String.length 1 "x" "vx" (some 100)
        (Cache.cSet String.length 0 "A" "va" (some 100)
          (Cache.mkCache String 3 3600 1000)).2).2).2 (by decide)).2
    (by decide) (by decide) (by decide)
  have hset := (c7_lru_eviction_order String.length 4 "B" "A" "vb" "va" (some 100)
    ⟨0, 100, 0, 1, 2, 100⟩
    (Cache.cGet 3 "A"
      (Cache.cSet String.length 2 "y" "vy" (some 100)
        (Cache.cSet String.length 1 "x" "vx" (some 100)
          (Cache.cSet String.length 0 "A" "va" (some 100)
            (Cache.mkCache String 3 3600 1000)).2).2).2).2 (by decide)).1
    (by decide) (by decide) (by decide) (by decide)
  refine ⟨?_, hset.1, ?_, by decide⟩
  · rw [hget]
    decide
  · rw [hset.2]
    decide

/-! ## Claim C8: set followed by get returns the value as a hit -/

/-- C8: on a well-formed store within its entry bound (and a positive
bound), whenever `set(k, v, ttl)` with `ttl > 0` succeeds, an immediately
following `get(k)` at the same time returns `v`, increments the hit
counter and leaves the miss counter unchanged. -/
theorem c8_set_then_get {V : Type} (esz : V → Nat) (t : Int) (k : String) (v : V)
    (ttl : Int) (s : Cache.CState V) (h : Cache.WF s)
    (hcount : s.cache.length ≤ s.max_size) (hmax : 1 ≤ s.max_size)
    (httl : 0 < ttl)
    (hok : (Cache.cSet esz t k v (some ttl) s).1 = true) :
    (Cache.cGet t k (Cache.cSet esz t k v (some ttl) s).2).1 = some v ∧
    (Cache.cGet t k (Cache.cSet esz t k v (some ttl) s).2).2.hits
      = (Cache.cSet esz t k v (some ttl) s).2.hits + 1 ∧
    (Cache.cGet t k (Cache.cSet esz t k v (some ttl) s).2).2.misses
      = (Cache.cSet esz t k v (some ttl) s).2.misses := by
  obtain ⟨p1, p2, p3, p4, p5, p6⟩ := cSet_props esz t k v (some ttl) s h
  obtain ⟨hlc, hlm⟩ := p6 hok hcount hmax
  have hexp : ¬ (⟨t, t + (some ttl).getD s.default_ttl, t, 1, esz v,
      (some ttl).getD s.default_ttl⟩ : Cache.Meta).expires_at < t := by
    show ¬ t + ttl < t
    omega
  rw [cGet_eq_hit t k _ v _ hlc hlm hexp]
  exact ⟨rfl, rfl, rfl⟩

/-- Witness for `c8_set_then_get` at a concrete store. -/
theorem c8_set_then_get_witness :
    (Cache.cSet String.length 0 "a" "xyz" (some 7) (Cache.mkCache String 3 100 1000)).1
      = true ∧
    (Cache.cGet 0 "a"
        (Cache.cSet String.length 0 "a" "xyz" (some 7)
          (Cache.mkCache String 3 100 1000)).2).1 = some "xyz" ∧
    (Cache.cGet 0 "a"
        (Cache.cSet String.length 0 "a" "xyz" (some 7)
          (Cache.mkCache String 3 100 1000)).2).2.hits
      = (Cache.cSet String.length 0 "a" "xyz" (some 7)
          (Cache.mkCache String 3 100 1000)).2.hits + 1 := by
  have h := c8_set_then_get String.length 0 "a" "xyz" 7
    (Cache.mkCache String 3 100 1000) (by decide) (by decide) (by decide)
    (by decide) (by decide)
  exact ⟨by decide, h.1, h.2.1⟩
